import Mathlib

/-!
A verification development for the peggysue PEG-combinator library
(package peggysue, files peggysue.go and optz.go).

The embedding models the non-debug execution path of the library: the
debug hooks (state.check, state.good, state.goodRange, state.bad,
state.matchDebug and the refStack diagnostics) are identity functions or
write-only diagnostics in the source, so they are dropped here.  Input
strings are modelled as lists of byte values (List Nat), Go interface
values as Option Value (none is Go nil), the memo table map as an
association list keyed by (position, ref id), and Go panics together with
divergence as a fuel-exhausted interpreter returning none.  Each rule
node constructor below corresponds to one match* struct of the source and
each case of the interpreter mirrors the body of that struct's match
method statement by statement.
-/

namespace Peggysue

/-- Semantic values.  Go stores user values as interface\x7b\x7d; the claims only
need byte strings (Go string values, e.g. from Capture), numbers, and
values implementing the SetPositioner interface, which are modelled by the
positioned constructor (SetPosition overwrites its two offsets). -/
inductive Value where
  | bytes (l : List Nat)
  | num (n : Int)
  | positioned (v : Value) (a b : Nat)
  deriving DecidableEq

/-- A Go interface value: none is the nil interface. -/
abbrev Val := Option Value

/-- The result struct of peggysue.go: a matched flag and a value. -/
structure Result where
  matched : Bool
  value : Val := none
  deriving DecidableEq

/-- The memoResult struct: result, endPos and the used counter. -/
structure MemoEntry where
  res : Result
  endPos : Nat
  used : Nat
  deriving DecidableEq

/-- The Values scope: either the compactedValues container (an array of up
to 5 entries plus a used counter, modelled as the list of its used
entries) or the valMap promotion (a Go map, modelled as an association
list where set prepends and lookup takes the first hit, which gives map
overwrite semantics). -/
inductive Vals where
  | compact (entries : List (String × Val))
  | vmap (entries : List (String × Val))
  deriving DecidableEq

/-- First-match association-list lookup.  Absent keys give none, exactly as
the Go Get methods return nil for unknown names. -/
def assocGet : List (String × Val) → String → Val
  | [], _ => none
  | (n, v) :: t, name => if n = name then v else assocGet t name

/-- Values.Get: compactedValues scans its used entries in order (first
occurrence wins); valMap is a map lookup. -/
def valsGet : Vals → String → Val
  | .compact es, n => assocGet es n
  | .vmap es, n => assocGet es n

/-- Values.set: compactedValues.set appends and fails (returns false,
here none) when all 5 slots are used; valMap.set always succeeds. -/
def valsSet : Vals → String → Val → Option Vals
  | .compact es, n, v => if es.length ≥ 5 then none else some (.compact (es ++ [(n, v)]))
  | .vmap es, n, v => some (.vmap ((n, v) :: es))

/-- The store performed by matchNamed.match: try Values.set; if the compact
container is full, promote by inserting its entries in order into a fresh
valMap and then set the new name.  Inserting in order into a map makes the
highest index win, which is the reversed list under first-hit lookup. -/
def namedStore (vals : Vals) (n : String) (v : Val) : Vals :=
  match valsSet vals n v with
  | some w => w
  | none =>
    match vals with
    | .compact es => .vmap ((n, v) :: es.reverse)
    | .vmap es => .vmap ((n, v) :: es)

/-- Memo key: (input position, ref identity).  Go keys the outer map by
position and the inner map by the ref pointer; only matchRef nodes are
ever used as keys, so refs are identified by a numeric id. -/
abbrev MemoKey := Nat × Nat

/-- The memo table, as an association list. -/
abbrev Memos := List (MemoKey × MemoEntry)

def memoLookup : Memos → MemoKey → Option MemoEntry
  | [], _ => none
  | (k, e) :: t, key => if k = key then some e else memoLookup t key

/-- Map write: replace the entry at the key, or append a new binding. -/
def memoSet : Memos → MemoKey → MemoEntry → Memos
  | [], key, e => [(key, e)]
  | (k, e0) :: t, key, e => if k = key then (k, e) :: t else (k, e0) :: memoSet t key e

/-- The in-place update done through the mr pointer by the seed-growth
loop: overwrite result and endPos, keep the used counter. -/
def memoRecord (ms : Memos) (k : MemoKey) (res : Result) (endPos : Nat) : Memos :=
  memoSet ms k
    { res := res, endPos := endPos,
      used := match memoLookup ms k with | some e => e.used | none => 0 }

/-- The parser state (struct state of peggysue.go), restricted to the
fields with non-debug semantics. -/
structure State where
  input : List Nat
  pos : Nat
  memos : Memos
  values : Vals
  curRef : Option Nat
  maxPos : Nat
  maxRule : Option Nat
  deriving DecidableEq

/-- state.cur(): the remaining input input[pos:]. -/
def State.cur (s : State) : List Nat := s.input.drop s.pos

/-- The byte input[pos] (call sites guard pos < len(input)). -/
def State.byteAt (s : State) : Nat := s.input.getD s.pos 0

/-- state.restore(p). -/
def State.restore (s : State) (p : Nat) : State := { s with pos := p }

/-- state.advance(l, r): move pos forward and update the furthest-advance
pair (maxPos, maxRule = curRef) when a new maximum is reached. -/
def State.advance (s : State) (l : Nat) : State :=
  if s.pos + l > s.maxPos then
    { s with pos := s.pos + l, maxPos := s.pos + l, maxRule := s.curRef }
  else
    { s with pos := s.pos + l }

/-- The Go slice expression input[a:b]. -/
def sliceL (l : List Nat) (a b : Nat) : List Nat := (l.drop a).take (b - a)

/-- strings.HasPrefix(big, small). -/
def startsWithL : List Nat → List Nat → Bool
  | _, [] => true
  | [], _ :: _ => false
  | a :: as, b :: bs => a = b ∧ startsWithL as bs

/-- Is b a UTF-8 continuation byte. -/
def contByte (b : Nat) : Bool := 0x80 ≤ b ∧ b < 0xC0

/-- Embedding of utf8.DecodeRuneInString: returns (rune, size).  Invalid
or truncated sequences, overlong encodings, surrogates and out-of-range
values give (RuneError, 1); the empty string gives size 0.  The source
only calls it on a non-empty suffix whose first byte is at least 0x80. -/
def decodeRune : List Nat → Nat × Nat
  | [] => (0xFFFD, 0)
  | b0 :: rest =>
    if b0 < 0x80 then (b0, 1)
    else if b0 < 0xC2 then (0xFFFD, 1)
    else if b0 < 0xE0 then
      match rest with
      | b1 :: _ =>
        if contByte b1 then ((b0 - 0xC0) * 0x40 + (b1 - 0x80), 2) else (0xFFFD, 1)
      | [] => (0xFFFD, 1)
    else if b0 < 0xF0 then
      match rest with
      | b1 :: b2 :: _ =>
        if contByte b1 ∧ contByte b2 then
          let r := (b0 - 0xE0) * 0x1000 + (b1 - 0x80) * 0x40 + (b2 - 0x80)
          if r < 0x800 ∨ (0xD800 ≤ r ∧ r < 0xE000) then (0xFFFD, 1) else (r, 3)
        else (0xFFFD, 1)
      | _ => (0xFFFD, 1)
    else if b0 < 0xF5 then
      match rest with
      | b1 :: b2 :: b3 :: _ =>
        if contByte b1 ∧ contByte b2 ∧ contByte b3 then
          let r := (b0 - 0xF0) * 0x40000 + (b1 - 0x80) * 0x1000 + (b2 - 0x80) * 0x40 + (b3 - 0x80)
          if r < 0x10000 ∨ r > 0x10FFFF then (0xFFFD, 1) else (r, 4)
        else (0xFFFD, 1)
      | _ => (0xFFFD, 1)
    else (0xFFFD, 1)

/-- Decode one code point at the current position, with the b < RuneSelf
fast path used by matchAny, matchCharRange, matchCharSet and
matchRunePredicate. -/
def decodeAt (s : State) : Nat × Nat :=
  let b := s.byteAt
  if b < 0x80 then (b, 1) else decodeRune s.cur

/-- The SetPositioner call made by matchAction and matchTransform: if the
produced value implements SetPosition, overwrite its span. -/
def applySetPos (v : Val) (a b : Nat) : Val :=
  match v with
  | some (.positioned x _ _) => some (.positioned x a b)
  | w => w

/-- The rule-node tree.  Each constructor is one match* struct; embedded Go
functions (Scan, Rune, Transform, Action, Apply, CheckAction, the compiled
regex of Re) are carried as Lean functions.  A regex is abstracted as the
length of its anchored match, matchApply's reflective struct construction
as a function from the scope to the built (never-nil) record. -/
inductive Rule where
  | anyR
  | strN (l : List Nat)
  | str1 (b : Nat)
  | str2 (a b : Nat)
  | regexR (f : List Nat → Option Nat)
  | charRange (lo hi : Nat)
  | charSet (set : List Nat)
  | runeR (f : Nat → Bool)
  | orN (rs : List Rule)
  | either (a b : Rule)
  | branchN (rs : List (String × Rule))
  | seqN (rs : List Rule)
  | both (a b : Rule)
  | three (a b c : Rule)
  | star (r : Rule)
  | plusR (r : Rule)
  | manyR (mn mx : Int) (r : Rule) (f : Option (List Val → Val))
  | maybeR (r : Rule)
  | checkR (r : Rule)
  | notR (r : Rule)
  | notByte (b : Nat)
  | refR (i : Nat)
  | scopeR (r : Rule)
  | named (n : String) (r : Rule)
  | actionR (r : Rule) (f : Vals → Val)
  | applyR (r : Rule) (build : Vals → Value)
  | transform (r : Rule) (f : List Nat → Val)
  | captureR (r : Rule)
  | checkAction (f : Vals → Bool)
  | eos
  | scanR (f : List Nat → Int)
  | ptab (t : List (Nat × Rule))

/-- A bound rule graph: the body assigned to each ref by Ref.Set (none for
an unset ref, which panics at match time) and the left-recursion flag
computed at bind time. -/
structure Grammar where
  body : Nat → Option Rule
  leftRec : Nat → Bool

/-- matchPrefixTable's byte-indexed map lookup. -/
def lookupByte : List (Nat × Rule) → Nat → Option Rule
  | [], _ => none
  | (b, r) :: t, key => if b = key then some r else lookupByte t key

mutual

/-- One step of rule matching (the match methods of the rule nodes,
non-debug path, with s.match r = r.match s).  Fuel bounds the recursion
depth; none models fuel exhaustion, a Go panic (unset ref) or
divergence. -/
def matchRule (g : Grammar) : Nat → Rule → State → Option (Result × State)
  | 0, _, _ => none
  | Nat.succ fuel, r, s =>
    match r with
    | .anyR =>
      if s.pos ≥ s.input.length then some ({ matched := false }, s)
      else some ({ matched := true }, s.advance (decodeAt s).2)
    | .strN l =>
      if l.length > s.cur.length then some ({ matched := false }, s)
      else if startsWithL s.cur l then some ({ matched := true }, s.advance l.length)
      else some ({ matched := false }, s)
    | .str1 b =>
      if s.pos ≥ s.input.length then some ({ matched := false }, s)
      else if s.byteAt = b then some ({ matched := true }, s.advance 1)
      else some ({ matched := false }, s)
    | .str2 a b =>
      if s.pos + 1 ≥ s.input.length then some ({ matched := false }, s)
      else if s.byteAt ≠ a then some ({ matched := false }, s)
      else if s.input.getD (s.pos + 1) 0 ≠ b then some ({ matched := false }, s)
      else some ({ matched := true }, s.advance 2)
    | .regexR f =>
      match f s.cur with
      | none => some ({ matched := false }, s)
      | some k => some ({ matched := true }, s.advance k)
    | .charRange lo hi =>
      if s.pos ≥ s.input.length then some ({ matched := false }, s)
      else
        let p := decodeAt s
        if p.1 < lo ∨ p.1 > hi then some ({ matched := false }, s)
        else some ({ matched := true }, s.advance p.2)
    | .charSet set =>
      if s.pos ≥ s.input.length then some ({ matched := false }, s)
      else
        let p := decodeAt s
        if set.contains p.1 then some ({ matched := true }, s.advance p.2)
        else some ({ matched := false }, s)
    | .runeR f =>
      if s.pos ≥ s.input.length then some ({ matched := false }, s)
      else
        let p := decodeAt s
        if f p.1 then some ({ matched := true }, s.advance p.2)
        else some ({ matched := false }, s)
    | .orN rs => orLoop g fuel rs s.pos s
    | .either a b =>
      match matchRule g fuel a s with
      | none => none
      | some (res, s1) =>
        if res.matched then some (res, s1)
        else
          match matchRule g fuel b (s1.restore s.pos) with
          | none => none
          | some (res2, s2) =>
            if res2.matched then some (res2, s2)
            else some ({ matched := false }, s2.restore s.pos)
    | .branchN rs => branchLoop g fuel rs s.pos s
    | .seqN rs => seqLoop g fuel rs s.pos none s
    | .both a b =>
      match matchRule g fuel a s with
      | none => none
      | some (res, s1) =>
        if res.matched then
          match matchRule g fuel b s1 with
          | none => none
          | some (res2, s2) =>
            if res2.matched then
              some ({ matched := true,
                      value := match res2.value with | some v => some v | none => res.value }, s2)
            else some ({ matched := false }, s2.restore s.pos)
        else some ({ matched := false }, s1.restore s.pos)
    | .three a b c =>
      match matchRule g fuel a s with
      | none => none
      | some (res, s1) =>
        if res.matched then
          match matchRule g fuel b s1 with
          | none => none
          | some (res2, s2) =>
            if res2.matched then
              match matchRule g fuel c s2 with
              | none => none
              | some (res3, s3) =>
                if res3.matched then
                  some ({ matched := true,
                          value :=
                            match res3.value with
                            | some v => some v
                            | none => match res2.value with | some v => some v | none => res.value },
                        s3)
                else some ({ matched := false }, s3.restore s.pos)
            else some ({ matched := false }, s2.restore s.pos)
        else some ({ matched := false }, s1.restore s.pos)
    | .star r1 => starLoop g fuel r1 s
    | .plusR r1 =>
      match matchRule g fuel r1 s with
      | none => none
      | some (res, s1) =>
        if res.matched then plusLoop g fuel r1 res.value s1
        else some ({ matched := false }, s1.restore s.pos)
    | .manyR mn mx r1 f =>
      match manyLoop g fuel r1 mx [] s with
      | none => none
      | some (results, s1) =>
        if (results.length : Int) < mn then some ({ matched := false }, s1.restore s.pos)
        else
          some ({ matched := true,
                  value := match f with | some fn => fn results | none => none }, s1)
    | .maybeR r1 =>
      match matchRule g fuel r1 s with
      | none => none
      | some (res, s1) =>
        if res.matched then some ({ res with matched := true }, s1)
        else some ({ res with matched := true }, s1.restore s.pos)
    | .checkR r1 =>
      match matchRule g fuel r1 s with
      | none => none
      | some (res, s1) => some (res, s1.restore s.pos)
    | .notR r1 =>
      if s.pos ≥ s.input.length then some ({ matched := false }, s)
      else
        match matchRule g fuel r1 s with
        | none => none
        | some (res, s1) => some ({ res with matched := !res.matched }, s1.restore s.pos)
    | .notByte b =>
      if s.pos ≥ s.input.length then some ({ matched := false }, s)
      else some ({ matched := decide (b ≠ s.byteAt) }, s)
    | .refR i =>
      match g.body i with
      | none => none
      | some b =>
        let s0 : State := { s with curRef := some i }
        match memoLookup s0.memos (s.pos, i) with
        | some e =>
          some (e.res,
            { s0 with
              memos := memoSet s0.memos (s.pos, i) { e with used := e.used + 1 },
              pos := e.endPos, curRef := s.curRef })
        | none =>
          if g.leftRec i then
            let seeded : State :=
              { s0 with
                memos := memoSet s0.memos (s.pos, i)
                  { res := { matched := false }, endPos := s.pos, used := 0 } }
            match growLoop g fuel b i s.pos { matched := false } s.pos seeded with
            | none => none
            | some (res, s1) => some (res, { s1 with curRef := s.curRef })
          else
            match memoLookup s0.memos (s.pos, i) with
            | some e => some (e.res, { s0 with pos := e.endPos, curRef := s.curRef })
            | none =>
              match matchRule g fuel b s0 with
              | none => none
              | some (res, s1) =>
                some (res,
                  { s1 with
                    memos := memoSet s1.memos (s.pos, i)
                      { res := res, endPos := s1.pos, used := 0 },
                    curRef := s.curRef })
    | .scopeR r1 =>
      match matchRule g fuel r1 { s with values := .compact [] } with
      | none => none
      | some (res, s1) => some (res, { s1 with values := s.values })
    | .named n r1 =>
      match matchRule g fuel r1 s with
      | none => none
      | some (res, s1) =>
        if res.matched then some (res, { s1 with values := namedStore s1.values n res.value })
        else some (res, s1)
    | .actionR r1 f =>
      match matchRule g fuel r1 s with
      | none => none
      | some (res, s1) =>
        if res.matched then
          some ({ res with value := applySetPos (f s1.values) s.pos s1.pos }, s1)
        else some (res, s1.restore s.pos)
    | .applyR r1 build =>
      match matchRule g fuel r1 s with
      | none => none
      | some (res, s1) =>
        if res.matched then some ({ res with value := some (build s1.values) }, s1)
        else some (res, s1.restore s.pos)
    | .transform r1 f =>
      match matchRule g fuel r1 s with
      | none => none
      | some (res, s1) =>
        if res.matched then
          some ({ res with value := applySetPos (f (sliceL s1.input s.pos s1.pos)) s.pos s1.pos }, s1)
        else some (res, s1.restore s.pos)
    | .captureR r1 =>
      match matchRule g fuel r1 s with
      | none => none
      | some (res, s1) =>
        if res.matched then
          some ({ res with value := some (.bytes (sliceL s1.input s.pos s1.pos)) }, s1)
        else some (res, s1.restore s.pos)
    | .checkAction f =>
      if f s.values then some ({ matched := true }, s)
      else some ({ matched := false }, s)
    | .eos => some ({ matched := decide (s.pos ≥ s.input.length) }, s)
    | .scanR f =>
      -- toNat models the documented contract (a non-negative count of
      -- consumed bytes); a return below -1 corrupts the Go position.
      if s.pos ≥ s.input.length then some ({ matched := false }, s)
      else
        let loc := f s.cur
        if loc = -1 then some ({ matched := false }, s)
        else some ({ matched := true }, s.advance loc.toNat)
    | .ptab t =>
      if s.pos ≥ s.input.length then some ({ matched := false }, s)
      else
        match lookupByte t s.byteAt with
        | none => some ({ matched := false }, s)
        | some r1 => matchRule g fuel r1 s
termination_by structural fuel => fuel

/-- matchOr.match's loop: try each alternative, restoring to the entry
mark after each failure. -/
def orLoop (g : Grammar) : Nat → List Rule → Nat → State → Option (Result × State)
  | 0, _, _, _ => none
  | Nat.succ _, [], _, s => some ({ matched := false }, s)
  | Nat.succ fuel, r :: rs, save, s =>
    match matchRule g fuel r s with
    | none => none
    | some (res, s1) =>
      if res.matched then some (res, s1)
      else orLoop g fuel rs save (s1.restore save)
termination_by structural fuel => fuel

/-- matchBranch.match's loop (the refStack labels are diagnostics only). -/
def branchLoop (g : Grammar) : Nat → List (String × Rule) → Nat → State → Option (Result × State)
  | 0, _, _, _ => none
  | Nat.succ _, [], _, s => some ({ matched := false }, s)
  | Nat.succ fuel, br :: rs, save, s =>
    match matchRule g fuel br.2 s with
    | none => none
    | some (res, s1) =>
      if res.matched then some (res, s1)
      else branchLoop g fuel rs save (s1.restore save)
termination_by structural fuel => fuel

/-- matchSeq.match's loop: acc is ret.value, the value of the rightmost
sub-match whose value was non-nil. -/
def seqLoop (g : Grammar) : Nat → List Rule → Nat → Val → State → Option (Result × State)
  | 0, _, _, _, _ => none
  | Nat.succ _, [], _, acc, s => some ({ matched := true, value := acc }, s)
  | Nat.succ fuel, r :: rs, mark, acc, s =>
    match matchRule g fuel r s with
    | none => none
    | some (res, s1) =>
      if res.matched then
        seqLoop g fuel rs mark (match res.value with | some v => some v | none => acc) s1
      else some ({ matched := false }, s1.restore mark)
termination_by structural fuel => fuel

/-- matchZeroOrMore.match: loop until the sub-rule fails, then restore the
iteration mark and return matched with the value of that failing result. -/
def starLoop (g : Grammar) : Nat → Rule → State → Option (Result × State)
  | 0, _, _ => none
  | Nat.succ fuel, r, s =>
    match matchRule g fuel r s with
    | none => none
    | some (res, s1) =>
      if res.matched then starLoop g fuel r s1
      else some ({ matched := true, value := res.value }, s1.restore s.pos)
termination_by structural fuel => fuel

/-- matchOneOrMore.match's inner loop: val is overwritten by each
successful iteration's value. -/
def plusLoop (g : Grammar) : Nat → Rule → Val → State → Option (Result × State)
  | 0, _, _, _ => none
  | Nat.succ fuel, r, val, s =>
    match matchRule g fuel r s with
    | none => none
    | some (res, s1) =>
      if res.matched then plusLoop g fuel r res.value s1
      else some ({ matched := true, value := val }, s1.restore s.pos)
termination_by structural fuel => fuel

/-- matchMany.match's collection loop: append each successful value; stop
after a failure (restoring that iteration's mark) or when max results are
collected (max = -1 meaning no maximum, tested after the append). -/
def manyLoop (g : Grammar) : Nat → Rule → Int → List Val → State → Option (List Val × State)
  | 0, _, _, _, _ => none
  | Nat.succ fuel, r, mx, acc, s =>
    match matchRule g fuel r s with
    | none => none
    | some (res, s1) =>
      if res.matched then
        let acc2 := acc ++ [res.value]
        if mx ≠ -1 ∧ (acc2.length : Int) = mx then some (acc2, s1)
        else manyLoop g fuel r mx acc2 s1
      else some (acc, s1.restore s.pos)
termination_by structural fuel => fuel

/-- matchRef.match's seed-growth loop for a left-recursive ref: rematch the
body from P; stop when endPos stops growing, restoring the last accepted
endPos; otherwise overwrite the memo entry in place and continue. -/
def growLoop (g : Grammar) : Nat → Rule → Nat → Nat → Result → Nat → State → Option (Result × State)
  | 0, _, _, _, _, _, _ => none
  | Nat.succ fuel, b, i, P, lastRes, lastPos, s =>
    match matchRule g fuel b (s.restore P) with
    | none => none
    | some (res, s1) =>
      if s1.pos ≤ lastPos then some (lastRes, s1.restore lastPos)
      else growLoop g fuel b i P res s1.pos
        { s1 with memos := memoRecord s1.memos (P, i) res s1.pos }
termination_by structural fuel => fuel

end

/-- The S constructor: 1- and 2-byte literals get the specialized nodes. -/
def mkS (l : List Nat) : Rule :=
  match l with
  | [b] => .str1 b
  | [a, b] => .str2 a b
  | _ => .strN l

/-- The Or constructor: a single rule is returned as is, two rules build
the matchEither specialization. -/
def mkOr (rs : List Rule) : Rule :=
  match rs with
  | [r] => r
  | [a, b] => .either a b
  | _ => .orN rs

/-- The Seq constructor with its 2- and 3-ary specializations. -/
def mkSeq (rs : List Rule) : Rule :=
  match rs with
  | [r] => r
  | [a, b] => .both a b
  | [a, b, c] => .three a b c
  | _ => .seqN rs

/-- The Not constructor: Not(S(b)) for a single byte becomes the
matchNotByte specialization. -/
def mkNot (r : Rule) : Rule :=
  match r with
  | .str1 b => .notByte b
  | _ => .notR r

/-- The Action constructor wraps the internal action node in a scope. -/
def mkAction (r : Rule) (f : Vals → Val) : Rule := .scopeR (.actionR r f)

/-- The Apply constructor wraps the internal apply node in a scope. -/
def mkApply (r : Rule) (build : Vals → Value) : Rule := .scopeR (.applyR r build)

/-- Type test used by matchRef.Set. -/
def isScopeRule : Rule → Bool
  | .scopeR _ => true
  | _ => false

/-- The body transformation done by matchRef.Set: the source wraps the
rule in an extra matchScope only when the rule is itself a matchScope. -/
def refSetBody (r : Rule) : Rule := if isScopeRule r then .scopeR r else r

/-- The outcome of Parser.Parse: (value, matched, err), where err is
either nil or ErrInputNotConsumed carrying (MaxPos, MaxRule). -/
structure ParseOut where
  value : Val
  ok : Bool
  errNotConsumed : Option (Nat × Option Nat)
  deriving DecidableEq

/-- The fresh state built by Parser.parse. -/
def initState (input : List Nat) : State :=
  { input := input, pos := 0, memos := [], values := .compact [],
    curRef := none, maxPos := 0, maxRule := none }

/-- Parser.Parse: run the root rule on a fresh state; not matched gives
(nil, false, nil); matched with unconsumed input gives the
ErrInputNotConsumed error unless the partial option was selected. -/
def parse (g : Grammar) (fuel : Nat) (allowPartial : Bool) (r : Rule) (input : List Nat) :
    Option ParseOut :=
  match matchRule g fuel r (initState input) with
  | none => none
  | some (res, s) =>
    if !res.matched then some { value := none, ok := false, errNotConsumed := none }
    else if !allowPartial ∧ s.pos ≠ input.length then
      some { value := res.value, ok := false, errNotConsumed := some (s.maxPos, s.maxRule) }
    else some { value := res.value, ok := true, errNotConsumed := none }


/-! ## Basic lemmas about the state and memo operations -/

@[simp] theorem restore_input (s : State) (p : Nat) : (s.restore p).input = s.input := rfl

@[simp] theorem restore_pos (s : State) (p : Nat) : (s.restore p).pos = p := rfl

@[simp] theorem restore_memos (s : State) (p : Nat) : (s.restore p).memos = s.memos := rfl

@[simp] theorem restore_values (s : State) (p : Nat) : (s.restore p).values = s.values := rfl

@[simp] theorem advance_input (s : State) (k : Nat) : (s.advance k).input = s.input := by
  unfold State.advance; split <;> rfl

@[simp] theorem advance_pos (s : State) (k : Nat) : (s.advance k).pos = s.pos + k := by
  unfold State.advance; split <;> rfl

@[simp] theorem advance_memos (s : State) (k : Nat) : (s.advance k).memos = s.memos := by
  unfold State.advance; split <;> rfl

@[simp] theorem advance_values (s : State) (k : Nat) : (s.advance k).values = s.values := by
  unfold State.advance; split <;> rfl

@[simp] theorem cur_length (s : State) : s.cur.length = s.input.length - s.pos := by
  simp [State.cur]

theorem memoLookup_set_self (ms : Memos) (k : MemoKey) (e : MemoEntry) :
    memoLookup (memoSet ms k e) k = some e := by
  induction ms with
  | nil => simp [memoSet, memoLookup]
  | cons p t ih =>
    simp only [memoSet]
    split
    · simp_all [memoLookup]
    · simp only [memoLookup]
      split
      · simp_all
      · exact ih

theorem memoLookup_set_ne (ms : Memos) (k k2 : MemoKey) (e : MemoEntry) (h : k2 ≠ k) :
    memoLookup (memoSet ms k e) k2 = memoLookup ms k2 := by
  have hne : ¬ k = k2 := fun hh => h hh.symm
  induction ms with
  | nil => simp [memoSet, memoLookup, hne]
  | cons p t ih =>
    simp only [memoSet]
    split
    · rename_i heq
      subst heq
      simp [memoLookup, hne]
    · simp only [memoLookup]
      split
      · rfl
      · exact ih

/-! ## Invariants used by the main induction -/

/-- A memo table is well formed when every non-matching entry restores to
its own key position (which is how entries are only ever written when the
failing sub-match restored the position). -/
def MemoOK (ms : Memos) : Prop :=
  ∀ p i e, memoLookup ms (p, i) = some e → e.res.matched = false → e.endPos = p

/-- Table ms2 preserves every entry of ms up to the used counter. -/
def MemoPres (ms ms2 : Memos) : Prop :=
  ∀ k e, memoLookup ms k = some e →
    ∃ e2, memoLookup ms2 k = some e2 ∧ e2.res = e.res ∧ e2.endPos = e.endPos

/-- Preservation of every entry except the one at key k0 (the entry a
seed-growth loop is allowed to overwrite). -/
def MemoPresX (ms ms2 : Memos) (k0 : MemoKey) : Prop :=
  ∀ k e, k ≠ k0 → memoLookup ms k = some e →
    ∃ e2, memoLookup ms2 k = some e2 ∧ e2.res = e.res ∧ e2.endPos = e.endPos

/-- Every entry end position is bounded by the input length. -/
def MemoBnd (ms : Memos) (n : Nat) : Prop :=
  ∀ k e, memoLookup ms k = some e → e.endPos ≤ n

theorem memoPres_refl (ms : Memos) : MemoPres ms ms := by
  intro k e h; exact ⟨e, h, rfl, rfl⟩

theorem memoPres_trans {m1 m2 m3 : Memos} (h1 : MemoPres m1 m2) (h2 : MemoPres m2 m3) :
    MemoPres m1 m3 := by
  intro k e h
  obtain ⟨e2, hl, hr, he⟩ := h1 k e h
  obtain ⟨e3, hl2, hr2, he2⟩ := h2 k e2 hl
  exact ⟨e3, hl2, hr2.trans hr, he2.trans he⟩

theorem memoPres_set_of_none {ms : Memos} {k : MemoKey} (e : MemoEntry)
    (h : memoLookup ms k = none) : MemoPres ms (memoSet ms k e) := by
  intro k2 e2 h2
  have hne : k2 ≠ k := by rintro rfl; rw [h2] at h; cases h
  exact ⟨e2, by rw [memoLookup_set_ne ms k k2 e hne]; exact h2, rfl, rfl⟩

theorem memoPres_set_of_eq {ms : Memos} {k : MemoKey} {e0 : MemoEntry} (e : MemoEntry)
    (h : memoLookup ms k = some e0) (h1 : e.res = e0.res) (h2 : e.endPos = e0.endPos) :
    MemoPres ms (memoSet ms k e) := by
  intro k2 e2 hl
  by_cases hk : k2 = k
  · subst hk
    rw [hl] at h
    cases h
    exact ⟨e, memoLookup_set_self ms k2 e, h1, h2⟩
  · exact ⟨e2, by rw [memoLookup_set_ne ms k k2 e hk]; exact hl, rfl, rfl⟩

theorem memoOK_set {ms : Memos} {k : MemoKey} {e : MemoEntry} (hOK : MemoOK ms)
    (h : e.res.matched = false → e.endPos = k.1) : MemoOK (memoSet ms k e) := by
  intro p i e2 hl hm
  by_cases hk : (p, i) = k
  · subst hk
    rw [memoLookup_set_self ms _ e] at hl
    cases hl
    exact h hm
  · rw [memoLookup_set_ne ms k _ e hk] at hl
    exact hOK p i e2 hl hm

theorem memoBnd_set {ms : Memos} {n : Nat} {k : MemoKey} {e : MemoEntry} (hB : MemoBnd ms n)
    (h : e.endPos ≤ n) : MemoBnd (memoSet ms k e) n := by
  intro k2 e2 hl
  by_cases hk : k2 = k
  · subst hk
    rw [memoLookup_set_self ms _ e] at hl
    cases hl
    exact h
  · rw [memoLookup_set_ne ms k _ e hk] at hl
    exact hB k2 e2 hl

theorem memoOK_pres_lookup {ms ms2 : Memos} (h : MemoPres ms ms2) {k : MemoKey} {e : MemoEntry}
    (hl : memoLookup ms k = some e) :
    ∃ e2, memoLookup ms2 k = some e2 ∧ e2.res = e.res ∧ e2.endPos = e.endPos := h k e hl

/-- The decoded size never exceeds the length of the decoded suffix. -/
theorem decodeRune_size_le (l : List Nat) : (decodeRune l).2 ≤ l.length := by
  rcases l with _ | ⟨b0, _ | ⟨b1, _ | ⟨b2, _ | ⟨b3, rest⟩⟩⟩⟩ <;>
  · simp only [decodeRune]
    repeat' split
    all_goals simp

/-- The size decoded at the current position is bounded by the remaining
input when the position is strictly inside the input. -/
theorem decodeAt_size_le (s : State) (h : s.pos < s.input.length) :
    (decodeAt s).2 ≤ s.input.length - s.pos := by
  simp only [decodeAt]
  split
  · simp
    omega
  · have := decodeRune_size_le s.cur
    simp only [cur_length] at this
    exact this

/-! ## Well-formed rules

The only rules able to push the position past the end of the input are the
user-supplied Scan and (abstracted) Re callbacks.  A grammar is well
formed when these callbacks honour their documented contract of consuming
at most the remaining input; the Go code reads input[pos:] unguarded and
panics when the contract is broken. -/

inductive WFr : Rule → Prop where
  | anyR : WFr .anyR
  | strN (l) : WFr (.strN l)
  | str1 (b) : WFr (.str1 b)
  | str2 (a b) : WFr (.str2 a b)
  | regexR (f) : (∀ l k, f l = some k → k ≤ l.length) → WFr (.regexR f)
  | charRange (lo hi) : WFr (.charRange lo hi)
  | charSet (set) : WFr (.charSet set)
  | runeR (f) : WFr (.runeR f)
  | orN (rs) : (∀ r ∈ rs, WFr r) → WFr (.orN rs)
  | either (a b) : WFr a → WFr b → WFr (.either a b)
  | branchN (rs) : (∀ p ∈ rs, WFr (Prod.snd p)) → WFr (.branchN rs)
  | seqN (rs) : (∀ r ∈ rs, WFr r) → WFr (.seqN rs)
  | both (a b) : WFr a → WFr b → WFr (.both a b)
  | three (a b c) : WFr a → WFr b → WFr c → WFr (.three a b c)
  | star (r) : WFr r → WFr (.star r)
  | plusR (r) : WFr r → WFr (.plusR r)
  | manyR (mn mx r f) : WFr r → WFr (.manyR mn mx r f)
  | maybeR (r) : WFr r → WFr (.maybeR r)
  | checkR (r) : WFr r → WFr (.checkR r)
  | notR (r) : WFr r → WFr (.notR r)
  | notByte (b) : WFr (.notByte b)
  | refR (i) : WFr (.refR i)
  | scopeR (r) : WFr r → WFr (.scopeR r)
  | named (n r) : WFr r → WFr (.named n r)
  | actionR (r f) : WFr r → WFr (.actionR r f)
  | applyR (r build) : WFr r → WFr (.applyR r build)
  | transform (r f) : WFr r → WFr (.transform r f)
  | captureR (r) : WFr r → WFr (.captureR r)
  | checkAction (f) : WFr (.checkAction f)
  | eos : WFr .eos
  | scanR (f) : (∀ l, f l = -1 ∨ (0 ≤ f l ∧ f l ≤ (l.length : Int))) → WFr (.scanR f)
  | ptab (t) : (∀ p ∈ t, WFr (Prod.snd p)) → WFr (.ptab t)

/-- A grammar is well formed when every bound ref body is. -/
def WFg (g : Grammar) : Prop := ∀ i b, g.body i = some b → WFr b

theorem lookupByte_mem (t : List (Nat × Rule)) (b : Nat) (r : Rule)
    (h : lookupByte t b = some r) : ∃ p ∈ t, Prod.snd p = r := by
  induction t with
  | nil => cases h
  | cons p t ih =>
    simp only [lookupByte] at h
    split at h
    · cases h
      exact ⟨p, by simp⟩
    · obtain ⟨q, hq, he⟩ := ih h
      exact ⟨q, by simp [hq], he⟩

/-! ## Postconditions of one interpreter step -/

/-- Shared postcondition of a completed match call: the input is
untouched, every memo entry survives (up to the used counter), a well
formed memo table stays well formed, and a non-match leaves the position
at the designated restore point. -/
def PostA (s : State) (res : Result) (s1 : State) (failTo : Nat) : Prop :=
  s1.input = s.input ∧ MemoPres s.memos s1.memos ∧
  (MemoOK s.memos → MemoOK s1.memos ∧ (res.matched = false → s1.pos = failTo))

/-- Bound-preservation postcondition: starting inside the input with a
bounded memo table, the call ends inside the input with a bounded table
(L is instantiated with the length of the immutable input). -/
def PostB (s s1 : State) (L : Nat) : Prop :=
  MemoBnd s.memos L → s.pos ≤ L → MemoBnd s1.memos L ∧ s1.pos ≤ L

theorem postA_self (s : State) (res : Result) : PostA s res s s.pos :=
  ⟨rfl, memoPres_refl _, fun h => ⟨h, fun _ => rfl⟩⟩

theorem postB_self (s : State) (L : Nat) : PostB s s L := fun hb hp => ⟨hb, hp⟩

theorem postA_advance (s : State) (res : Result) (k : Nat) (failTo : Nat)
    (h : res.matched = true) : PostA s res (s.advance k) failTo := by
  refine ⟨by simp, by simp [memoPres_refl], fun hOK => ⟨by simpa using hOK, fun hf => ?_⟩⟩
  rw [h] at hf
  cases hf

theorem postB_advance (s : State) (k L : Nat) (h : s.pos + k ≤ L) :
    PostB s (s.advance k) L := by
  intro hb hp
  constructor
  · simpa using hb
  · simpa using h

theorem postA_mt {s s1 : State} {res : Result} {p : Nat} (h : PostA s res s1 p)
    (hm : res.matched = true) (q : Nat) : PostA s res s1 q :=
  ⟨h.1, h.2.1, fun hOK => ⟨(h.2.2 hOK).1, fun hf => by rw [hm] at hf; cases hf⟩⟩

/-- The per-fuel induction package: one clause for each function of the
mutual interpreter block. -/
def StepM (g : Grammar) (fuel : Nat) : Prop :=
  ∀ r s res s1, matchRule g fuel r s = some (res, s1) →
    PostA s res s1 s.pos ∧ (WFg g → WFr r → PostB s s1 s.input.length)

def StepOr (g : Grammar) (fuel : Nat) : Prop :=
  ∀ rs save s res s1, s.pos = save → orLoop g fuel rs save s = some (res, s1) →
    PostA s res s1 save ∧
    (WFg g → (∀ r ∈ rs, WFr r) → PostB s s1 s.input.length)

def StepBr (g : Grammar) (fuel : Nat) : Prop :=
  ∀ rs save s res s1, s.pos = save → branchLoop g fuel rs save s = some (res, s1) →
    PostA s res s1 save ∧
    (WFg g → (∀ p ∈ rs, WFr (Prod.snd p)) → PostB s s1 s.input.length)

def StepSeq (g : Grammar) (fuel : Nat) : Prop :=
  ∀ rs mark acc s res s1, seqLoop g fuel rs mark acc s = some (res, s1) →
    PostA s res s1 mark ∧
    (WFg g → (∀ r ∈ rs, WFr r) → mark ≤ s.input.length → PostB s s1 s.input.length)

def StepStar (g : Grammar) (fuel : Nat) : Prop :=
  ∀ r s res s1, starLoop g fuel r s = some (res, s1) →
    (PostA s res s1 s.pos ∧ res.matched = true) ∧ (WFg g → WFr r → PostB s s1 s.input.length)

def StepPlus (g : Grammar) (fuel : Nat) : Prop :=
  ∀ r val s res s1, plusLoop g fuel r val s = some (res, s1) →
    (PostA s res s1 s.pos ∧ res.matched = true) ∧ (WFg g → WFr r → PostB s s1 s.input.length)

def StepMany (g : Grammar) (fuel : Nat) : Prop :=
  ∀ r mx acc s results s1, manyLoop g fuel r mx acc s = some (results, s1) →
    (s1.input = s.input ∧ MemoPres s.memos s1.memos ∧ (MemoOK s.memos → MemoOK s1.memos)) ∧
    (WFg g → WFr r → PostB s s1 s.input.length)

def StepGrow (g : Grammar) (fuel : Nat) : Prop :=
  ∀ b i P lastRes lastPos s res s1,
    growLoop g fuel b i P lastRes lastPos s = some (res, s1) →
    (s1.input = s.input ∧ MemoPresX s.memos s1.memos (P, i)) ∧
    (MemoOK s.memos → P ≤ lastPos → (lastRes.matched = false → lastPos = P) →
       MemoOK s1.memos ∧ (res.matched = false → s1.pos = P)) ∧
    (∀ e0, memoLookup s.memos (P, i) = some e0 → e0.res = lastRes → e0.endPos = lastPos →
       ∃ e, memoLookup s1.memos (P, i) = some e ∧ e.res = res ∧ e.endPos = s1.pos) ∧
    (WFg g → WFr b →
      MemoBnd s.memos s.input.length → P ≤ s.input.length → lastPos ≤ s.input.length →
      MemoBnd s1.memos s.input.length ∧ s1.pos ≤ s.input.length)

def AllSteps (g : Grammar) (fuel : Nat) : Prop :=
  StepM g fuel ∧ StepOr g fuel ∧ StepBr g fuel ∧ StepSeq g fuel ∧
  StepStar g fuel ∧ StepPlus g fuel ∧ StepMany g fuel ∧ StepGrow g fuel


theorem memoPresX_of_pres {ms ms2 : Memos} (h : MemoPres ms ms2) (k0 : MemoKey) :
    MemoPresX ms ms2 k0 := fun k e _ hl => h k e hl

theorem memoLookup_memoRecord_self (ms : Memos) (k : MemoKey) (res : Result) (ep : Nat) :
    ∃ u, memoLookup (memoRecord ms k res ep) k = some ⟨res, ep, u⟩ := by
  unfold memoRecord
  exact ⟨_, memoLookup_set_self ms k _⟩

theorem memoLookup_memoRecord_ne (ms : Memos) (k k2 : MemoKey) (res : Result) (ep : Nat)
    (h : k2 ≠ k) : memoLookup (memoRecord ms k res ep) k2 = memoLookup ms k2 := by
  unfold memoRecord
  exact memoLookup_set_ne ms k k2 _ h

theorem memoBnd_record {ms : Memos} {n : Nat} (k : MemoKey) (res : Result) {ep : Nat}
    (hB : MemoBnd ms n) (h : ep ≤ n) : MemoBnd (memoRecord ms k res ep) n := by
  unfold memoRecord
  exact memoBnd_set hB h

theorem memoOK_record {ms : Memos} {k : MemoKey} {res : Result} {ep : Nat} (hOK : MemoOK ms)
    (h : res.matched = false → ep = k.1) : MemoOK (memoRecord ms k res ep) := by
  unfold memoRecord
  exact memoOK_set hOK h

/-! ## The main induction: one lemma per interpreter function -/

theorem stepOr_succ (g : Grammar) (fuel : Nat) (IH : AllSteps g fuel) : StepOr g (fuel + 1) := by
  intro rs save s res s1 hps h
  match rs with
  | [] =>
    simp only [orLoop, Option.some.injEq, Prod.mk.injEq] at h
    obtain ⟨hres, hs⟩ := h
    subst hres; subst hs
    exact ⟨hps ▸ postA_self s _, fun _ _ => postB_self s _⟩
  | r :: rs2 =>
    simp only [orLoop] at h
    split at h
    · cases h
    · rename_i res0 s0 heq
      have hM := IH.1 r s res0 s0 heq
      split at h
      · rename_i hmt
        simp only [Option.some.injEq, Prod.mk.injEq] at h
        obtain ⟨hres, hs⟩ := h
        subst hres; subst hs
        exact ⟨postA_mt hM.1 hmt save, fun hg hrs => hM.2 hg (hrs r (by simp))⟩
      · rename_i hmt
        have hO := IH.2.1 rs2 save (s0.restore save) res s1 (by simp) h
        have hinp0 : s0.input = s.input := hM.1.1
        have hinp1 : s1.input = s.input := by
          have := hO.1.1
          simpa [hinp0] using this
        refine ⟨⟨hinp1, ?_, ?_⟩, ?_⟩
        · exact memoPres_trans hM.1.2.1 hO.1.2.1
        · intro hOK
          have h0 := hM.1.2.2 hOK
          have h1 := hO.1.2.2 (by simpa using h0.1)
          exact ⟨by simpa using h1.1, h1.2⟩
        · intro hg hrs
          intro hb hp
          have hB0 := hM.2 hg (hrs r (by simp)) hb hp
          have hB1 := hO.2 hg (fun r2 hr2 => hrs r2 (by simp [hr2]))
          simp only [restore_input, hinp0] at hB1
          exact hB1 (by simpa using hB0.1) (by simp only [restore_pos]; omega)

theorem stepBr_succ (g : Grammar) (fuel : Nat) (IH : AllSteps g fuel) : StepBr g (fuel + 1) := by
  intro rs save s res s1 hps h
  match rs with
  | [] =>
    simp only [branchLoop, Option.some.injEq, Prod.mk.injEq] at h
    obtain ⟨hres, hs⟩ := h
    subst hres; subst hs
    exact ⟨hps ▸ postA_self s _, fun _ _ => postB_self s _⟩
  | br :: rs2 =>
    simp only [branchLoop] at h
    split at h
    · cases h
    · rename_i res0 s0 heq
      have hM := IH.1 br.2 s res0 s0 heq
      split at h
      · rename_i hmt
        simp only [Option.some.injEq, Prod.mk.injEq] at h
        obtain ⟨hres, hs⟩ := h
        subst hres; subst hs
        exact ⟨postA_mt hM.1 hmt save, fun hg hrs => hM.2 hg (hrs br (by simp))⟩
      · rename_i hmt
        have hO := IH.2.2.1 rs2 save (s0.restore save) res s1 (by simp) h
        have hinp0 : s0.input = s.input := hM.1.1
        have hinp1 : s1.input = s.input := by
          have := hO.1.1
          simpa [hinp0] using this
        refine ⟨⟨hinp1, ?_, ?_⟩, ?_⟩
        · exact memoPres_trans hM.1.2.1 hO.1.2.1
        · intro hOK
          have h0 := hM.1.2.2 hOK
          have h1 := hO.1.2.2 (by simpa using h0.1)
          exact ⟨by simpa using h1.1, h1.2⟩
        · intro hg hrs
          intro hb hp
          have hB0 := hM.2 hg (hrs br (by simp)) hb hp
          have hB1 := hO.2 hg (fun p2 hp2 => hrs p2 (by simp [hp2]))
          simp only [restore_input, hinp0] at hB1
          exact hB1 (by simpa using hB0.1) (by simp only [restore_pos]; omega)

theorem stepSeq_succ (g : Grammar) (fuel : Nat) (IH : AllSteps g fuel) : StepSeq g (fuel + 1) := by
  intro rs mark acc s res s1 h
  match rs with
  | [] =>
    simp only [seqLoop, Option.some.injEq, Prod.mk.injEq] at h
    obtain ⟨hres, hs⟩ := h
    subst hres; subst hs
    refine ⟨⟨rfl, memoPres_refl _, fun hOK => ⟨hOK, fun hf => by cases hf⟩⟩,
      fun _ _ _ => postB_self s _⟩
  | r :: rs2 =>
    simp only [seqLoop] at h
    split at h
    · cases h
    · rename_i res0 s0 heq
      have hM := IH.1 r s res0 s0 heq
      split at h
      · rename_i hmt
        have hS := IH.2.2.2.1 rs2 mark _ s0 res s1 h
        have hinp0 : s0.input = s.input := hM.1.1
        have hinp1 : s1.input = s.input := by
          have := hS.1.1
          simpa [hinp0] using this
        refine ⟨⟨hinp1, ?_, ?_⟩, ?_⟩
        · exact memoPres_trans hM.1.2.1 hS.1.2.1
        · intro hOK
          have h0 := hM.1.2.2 hOK
          have h1 := hS.1.2.2 h0.1
          exact ⟨h1.1, h1.2⟩
        · intro hg hrs hmark
          intro hb hp
          have hB0 := hM.2 hg (hrs r (by simp)) hb hp
          have hB1 := hS.2 hg (fun r2 hr2 => hrs r2 (by simp [hr2])) (hinp0 ▸ hmark)
          rw [hinp0] at hB1
          exact hB1 hB0.1 hB0.2
      · rename_i hmt
        simp only [Option.some.injEq, Prod.mk.injEq] at h
        obtain ⟨hres, hs⟩ := h
        subst hres; subst hs
        have hinp0 : s0.input = s.input := hM.1.1
        refine ⟨⟨by simpa using hinp0, by simpa using hM.1.2.1, ?_⟩, ?_⟩
        · intro hOK
          exact ⟨by simpa using (hM.1.2.2 hOK).1, fun _ => by simp⟩
        · intro hg hrs hmark
          intro hb hp
          have hB0 := hM.2 hg (hrs r (by simp)) hb hp
          exact ⟨by simpa using hB0.1, by simpa using hmark⟩

theorem stepStar_succ (g : Grammar) (fuel : Nat) (IH : AllSteps g fuel) : StepStar g (fuel + 1) := by
  intro r s res s1 h
  simp only [starLoop] at h
  split at h
  · cases h
  · rename_i res0 s0 heq
    have hM := IH.1 r s res0 s0 heq
    split at h
    · rename_i hmt
      have hS := IH.2.2.2.2.1 r s0 res s1 h
      have hinp0 : s0.input = s.input := hM.1.1
      have hinp1 : s1.input = s.input := by
        have := hS.1.1.1
        simpa [hinp0] using this
      refine ⟨⟨⟨hinp1, ?_, ?_⟩, hS.1.2⟩, ?_⟩
      · exact memoPres_trans hM.1.2.1 hS.1.1.2.1
      · intro hOK
        have h0 := hM.1.2.2 hOK
        have h1 := hS.1.1.2.2 h0.1
        exact ⟨h1.1, fun hf => by rw [hS.1.2] at hf; cases hf⟩
      · intro hg hr
        intro hb hp
        have hB0 := hM.2 hg hr hb hp
        have hB1 := hS.2 hg hr
        rw [hinp0] at hB1
        exact hB1 hB0.1 hB0.2
    · rename_i hmt
      simp only [Option.some.injEq, Prod.mk.injEq] at h
      obtain ⟨hres, hs⟩ := h
      subst hres; subst hs
      have hinp0 : s0.input = s.input := hM.1.1
      refine ⟨⟨⟨by simpa using hinp0, by simpa using hM.1.2.1, ?_⟩, rfl⟩, ?_⟩
      · intro hOK
        exact ⟨by simpa using (hM.1.2.2 hOK).1, fun hf => by cases hf⟩
      · intro hg hr
        intro hb hp
        have hB0 := hM.2 hg hr hb hp
        exact ⟨by simpa using hB0.1, by simpa using hp⟩

theorem stepPlus_succ (g : Grammar) (fuel : Nat) (IH : AllSteps g fuel) : StepPlus g (fuel + 1) := by
  intro r val s res s1 h
  simp only [plusLoop] at h
  split at h
  · cases h
  · rename_i res0 s0 heq
    have hM := IH.1 r s res0 s0 heq
    split at h
    · rename_i hmt
      have hS := IH.2.2.2.2.2.1 r res0.value s0 res s1 h
      have hinp0 : s0.input = s.input := hM.1.1
      have hinp1 : s1.input = s.input := by
        have := hS.1.1.1
        simpa [hinp0] using this
      refine ⟨⟨⟨hinp1, ?_, ?_⟩, hS.1.2⟩, ?_⟩
      · exact memoPres_trans hM.1.2.1 hS.1.1.2.1
      · intro hOK
        have h0 := hM.1.2.2 hOK
        have h1 := hS.1.1.2.2 h0.1
        exact ⟨h1.1, fun hf => by rw [hS.1.2] at hf; cases hf⟩
      · intro hg hr
        intro hb hp
        have hB0 := hM.2 hg hr hb hp
        have hB1 := hS.2 hg hr
        rw [hinp0] at hB1
        exact hB1 hB0.1 hB0.2
    · rename_i hmt
      simp only [Option.some.injEq, Prod.mk.injEq] at h
      obtain ⟨hres, hs⟩ := h
      subst hres; subst hs
      have hinp0 : s0.input = s.input := hM.1.1
      refine ⟨⟨⟨by simpa using hinp0, by simpa using hM.1.2.1, ?_⟩, rfl⟩, ?_⟩
      · intro hOK
        exact ⟨by simpa using (hM.1.2.2 hOK).1, fun hf => by cases hf⟩
      · intro hg hr
        intro hb hp
        have hB0 := hM.2 hg hr hb hp
        exact ⟨by simpa using hB0.1, by simpa using hp⟩

theorem stepMany_succ (g : Grammar) (fuel : Nat) (IH : AllSteps g fuel) : StepMany g (fuel + 1) := by
  intro r mx acc s results s1 h
  simp only [manyLoop] at h
  split at h
  · cases h
  · rename_i res0 s0 heq
    have hM := IH.1 r s res0 s0 heq
    split at h
    · rename_i hmt
      split at h
      · simp only [Option.some.injEq, Prod.mk.injEq] at h
        obtain ⟨hres, hs⟩ := h
        subst hres; subst hs
        exact ⟨⟨hM.1.1, hM.1.2.1, fun hOK => (hM.1.2.2 hOK).1⟩, fun hg hr => hM.2 hg hr⟩
      · have hS := IH.2.2.2.2.2.2.1 r mx (acc ++ [res0.value]) s0 results s1 h
        have hinp0 : s0.input = s.input := hM.1.1
        have hinp1 : s1.input = s.input := by
          have := hS.1.1
          simpa [hinp0] using this
        refine ⟨⟨hinp1, ?_, ?_⟩, ?_⟩
        · exact memoPres_trans hM.1.2.1 hS.1.2.1
        · intro hOK
          exact hS.1.2.2 (hM.1.2.2 hOK).1
        · intro hg hr
          intro hb hp
          have hB0 := hM.2 hg hr hb hp
          have hB1 := hS.2 hg hr
          rw [hinp0] at hB1
          exact hB1 hB0.1 hB0.2
    · rename_i hmt
      simp only [Option.some.injEq, Prod.mk.injEq] at h
      obtain ⟨hres, hs⟩ := h
      subst hres; subst hs
      have hinp0 : s0.input = s.input := hM.1.1
      refine ⟨⟨by simpa using hinp0, by simpa using hM.1.2.1, ?_⟩, ?_⟩
      · intro hOK
        exact by simpa using (hM.1.2.2 hOK).1
      · intro hg hr
        intro hb hp
        have hB0 := hM.2 hg hr hb hp
        exact ⟨by simpa using hB0.1, by simpa using hp⟩

theorem stepGrow_succ (g : Grammar) (fuel : Nat) (IH : AllSteps g fuel) : StepGrow g (fuel + 1) := by
  intro b i P lastRes lastPos s res s1 h
  simp only [growLoop] at h
  split at h
  · cases h
  · rename_i res0 s0 heq
    have hM := IH.1 b (s.restore P) res0 s0 heq
    have hinp0 : s0.input = s.input := by simpa using hM.1.1
    split at h
    · rename_i hle
      simp only [Option.some.injEq, Prod.mk.injEq] at h
      obtain ⟨hres, hs⟩ := h
      subst hres; subst hs
      have hpres : MemoPres s.memos s0.memos := by simpa using hM.1.2.1
      refine ⟨⟨by simpa using hinp0, memoPresX_of_pres (by simpa using hpres) _⟩, ?_, ?_, ?_⟩
      · intro hOK hPl hLf
        have h0 := hM.1.2.2 (by simpa using hOK)
        exact ⟨by simpa using h0.1, fun hf => by simp [hLf hf]⟩
      · intro e0 hl0 hres0 hend0
        obtain ⟨e, hle2, her, hee⟩ := hpres (P, i) e0 hl0
        exact ⟨e, by simpa using hle2, her.trans hres0, by simp [hee, hend0]⟩
      · intro hg hwb hbnd hPle hLle
        have hB0 := hM.2 hg hwb
        simp only [restore_input, restore_pos] at hB0
        have := hB0 (by simpa using hbnd) hPle
        exact ⟨by simpa using this.1, by simpa using hLle⟩
    · rename_i hgt
      push_neg at hgt
      have hG := IH.2.2.2.2.2.2.2 b i P res0 s0.pos _ _ _ h
      have hpres : MemoPres s.memos s0.memos := by simpa using hM.1.2.1
      have hinp2 : s1.input = s.input := by
        have := hG.1.1
        simpa [hinp0] using this
      have hrecne : ∀ k2, k2 ≠ (P, i) →
          memoLookup (memoRecord s0.memos (P, i) res0 s0.pos) k2 = memoLookup s0.memos k2 :=
        fun k2 hk2 => memoLookup_memoRecord_ne s0.memos (P, i) k2 res0 s0.pos hk2
      refine ⟨⟨hinp2, ?_⟩, ?_, ?_, ?_⟩
      · intro k e hk hl
        obtain ⟨e2, hl2, her2, hee2⟩ := hpres k e hl
        obtain ⟨e3, hl3, her3, hee3⟩ := hG.1.2 k e2 hk (by
          show memoLookup _ k = some e2
          simpa [hrecne k hk] using hl2)
        exact ⟨e3, hl3, her3.trans her2, hee3.trans hee2⟩
      · intro hOK hPl hLf
        have h0 := hM.1.2.2 (by simpa using hOK)
        have hm0 : res0.matched = true := by
          by_contra hc
          have := h0.2 (by simpa using hc)
          simp at this
          omega
        have hOK2 : MemoOK (memoRecord s0.memos (P, i) res0 s0.pos) :=
          memoOK_record (by simpa using h0.1) (fun hf => by rw [hm0] at hf; cases hf)
        have := hG.2.1 (by simpa using hOK2) (by omega) (fun hf => by rw [hm0] at hf; cases hf)
        exact this
      · intro e0 hl0 hres0 hend0
        obtain ⟨u, hu⟩ := memoLookup_memoRecord_self s0.memos (P, i) res0 s0.pos
        exact hG.2.2.1 ⟨res0, s0.pos, u⟩ (by simpa using hu) rfl rfl
      · intro hg hwb hbnd hPle hLle
        have hB0 := hM.2 hg hwb
        simp only [restore_input, restore_pos] at hB0
        have hB0e := hB0 (by simpa using hbnd) hPle
        have hbnd2 : MemoBnd (memoRecord s0.memos (P, i) res0 s0.pos) s.input.length :=
          memoBnd_record (P, i) res0 (by simpa using hB0e.1) (by simpa using hB0e.2)
        have hB1 := hG.2.2.2 hg hwb
        simp only [hinp0] at hB1
        have := hB1 (by simpa using hbnd2) hPle (by simpa using hB0e.2)
        exact this

theorem postB_advance2 (s : State) (k L : Nat) (h : k ≤ L - s.pos) :
    PostB s (s.advance k) L := by
  intro hb hp
  refine ⟨by simpa using hb, ?_⟩
  simp only [advance_pos]
  omega

theorem stepM_succ (g : Grammar) (fuel : Nat) (IH : AllSteps g fuel) : StepM g (fuel + 1) := by
  intro r s res s1 h
  cases r with
  | anyR =>
    simp only [matchRule] at h
    split at h
    · simp only [Option.some.injEq, Prod.mk.injEq] at h
      obtain ⟨hres, hs⟩ := h; subst hres; subst hs
      exact ⟨postA_self s _, fun _ _ => postB_self s _⟩
    · rename_i hlt
      simp only [Option.some.injEq, Prod.mk.injEq] at h
      obtain ⟨hres, hs⟩ := h; subst hres; subst hs
      refine ⟨postA_advance s _ _ _ rfl, fun _ _ => postB_advance2 s _ _ ?_⟩
      exact decodeAt_size_le s (by omega)
  | strN l =>
    simp only [matchRule] at h
    split at h
    · simp only [Option.some.injEq, Prod.mk.injEq] at h
      obtain ⟨hres, hs⟩ := h; subst hres; subst hs
      exact ⟨postA_self s _, fun _ _ => postB_self s _⟩
    · rename_i hfit
      split at h
      · simp only [Option.some.injEq, Prod.mk.injEq] at h
        obtain ⟨hres, hs⟩ := h; subst hres; subst hs
        refine ⟨postA_advance s _ _ _ rfl, fun _ _ => postB_advance2 s _ _ ?_⟩
        simp only [cur_length] at hfit
        omega
      · simp only [Option.some.injEq, Prod.mk.injEq] at h
        obtain ⟨hres, hs⟩ := h; subst hres; subst hs
        exact ⟨postA_self s _, fun _ _ => postB_self s _⟩
  | str1 b =>
    simp only [matchRule] at h
    split at h
    · simp only [Option.some.injEq, Prod.mk.injEq] at h
      obtain ⟨hres, hs⟩ := h; subst hres; subst hs
      exact ⟨postA_self s _, fun _ _ => postB_self s _⟩
    · rename_i hlt
      split at h
      · simp only [Option.some.injEq, Prod.mk.injEq] at h
        obtain ⟨hres, hs⟩ := h; subst hres; subst hs
        refine ⟨postA_advance s _ _ _ rfl, fun _ _ => postB_advance2 s _ _ (by omega)⟩
      · simp only [Option.some.injEq, Prod.mk.injEq] at h
        obtain ⟨hres, hs⟩ := h; subst hres; subst hs
        exact ⟨postA_self s _, fun _ _ => postB_self s _⟩
  | str2 a b =>
    simp only [matchRule] at h
    split at h
    · simp only [Option.some.injEq, Prod.mk.injEq] at h
      obtain ⟨hres, hs⟩ := h; subst hres; subst hs
      exact ⟨postA_self s _, fun _ _ => postB_self s _⟩
    · rename_i hlt
      split at h
      · simp only [Option.some.injEq, Prod.mk.injEq] at h
        obtain ⟨hres, hs⟩ := h; subst hres; subst hs
        exact ⟨postA_self s _, fun _ _ => postB_self s _⟩
      · split at h
        · simp only [Option.some.injEq, Prod.mk.injEq] at h
          obtain ⟨hres, hs⟩ := h; subst hres; subst hs
          exact ⟨postA_self s _, fun _ _ => postB_self s _⟩
        · simp only [Option.some.injEq, Prod.mk.injEq] at h
          obtain ⟨hres, hs⟩ := h; subst hres; subst hs
          refine ⟨postA_advance s _ _ _ rfl, fun _ _ => postB_advance2 s _ _ (by omega)⟩
  | regexR f =>
    simp only [matchRule] at h
    split at h
    · simp only [Option.some.injEq, Prod.mk.injEq] at h
      obtain ⟨hres, hs⟩ := h; subst hres; subst hs
      exact ⟨postA_self s _, fun _ _ => postB_self s _⟩
    · rename_i k heq
      simp only [Option.some.injEq, Prod.mk.injEq] at h
      obtain ⟨hres, hs⟩ := h; subst hres; subst hs
      refine ⟨postA_advance s _ _ _ rfl, fun hg hr => postB_advance2 s _ _ ?_⟩
      cases hr with
      | regexR f hf =>
        have := hf s.cur k heq
        simp only [cur_length] at this
        omega
  | charRange lo hi =>
    simp only [matchRule] at h
    split at h
    · simp only [Option.some.injEq, Prod.mk.injEq] at h
      obtain ⟨hres, hs⟩ := h; subst hres; subst hs
      exact ⟨postA_self s _, fun _ _ => postB_self s _⟩
    · rename_i hlt
      split at h
      · simp only [Option.some.injEq, Prod.mk.injEq] at h
        obtain ⟨hres, hs⟩ := h; subst hres; subst hs
        exact ⟨postA_self s _, fun _ _ => postB_self s _⟩
      · simp only [Option.some.injEq, Prod.mk.injEq] at h
        obtain ⟨hres, hs⟩ := h; subst hres; subst hs
        refine ⟨postA_advance s _ _ _ rfl, fun _ _ => postB_advance2 s _ _ ?_⟩
        exact decodeAt_size_le s (by omega)
  | charSet set =>
    simp only [matchRule] at h
    split at h
    · simp only [Option.some.injEq, Prod.mk.injEq] at h
      obtain ⟨hres, hs⟩ := h; subst hres; subst hs
      exact ⟨postA_self s _, fun _ _ => postB_self s _⟩
    · rename_i hlt
      split at h
      · simp only [Option.some.injEq, Prod.mk.injEq] at h
        obtain ⟨hres, hs⟩ := h; subst hres; subst hs
        refine ⟨postA_advance s _ _ _ rfl, fun _ _ => postB_advance2 s _ _ ?_⟩
        exact decodeAt_size_le s (by omega)
      · simp only [Option.some.injEq, Prod.mk.injEq] at h
        obtain ⟨hres, hs⟩ := h; subst hres; subst hs
        exact ⟨postA_self s _, fun _ _ => postB_self s _⟩
  | runeR f =>
    simp only [matchRule] at h
    split at h
    · simp only [Option.some.injEq, Prod.mk.injEq] at h
      obtain ⟨hres, hs⟩ := h; subst hres; subst hs
      exact ⟨postA_self s _, fun _ _ => postB_self s _⟩
    · rename_i hlt
      split at h
      · simp only [Option.some.injEq, Prod.mk.injEq] at h
        obtain ⟨hres, hs⟩ := h; subst hres; subst hs
        refine ⟨postA_advance s _ _ _ rfl, fun _ _ => postB_advance2 s _ _ ?_⟩
        exact decodeAt_size_le s (by omega)
      · simp only [Option.some.injEq, Prod.mk.injEq] at h
        obtain ⟨hres, hs⟩ := h; subst hres; subst hs
        exact ⟨postA_self s _, fun _ _ => postB_self s _⟩
  | orN rs =>
    simp only [matchRule] at h
    have hO := IH.2.1 rs s.pos s res s1 rfl h
    refine ⟨hO.1, fun hg hr => ?_⟩
    cases hr with
    | orN rs hrs => exact hO.2 hg hrs
  | either a b =>
    simp only [matchRule] at h
    split at h
    · cases h
    · rename_i res0 s0 heq
      have hMa := IH.1 a s res0 s0 heq
      split at h
      · rename_i hmt
        simp only [Option.some.injEq, Prod.mk.injEq] at h
        obtain ⟨hres, hs⟩ := h; subst hres; subst hs
        exact ⟨hMa.1, fun hg hr => by cases hr with | either a b ha hb => exact hMa.2 hg ha⟩
      · rename_i hmt
        split at h
        · cases h
        · rename_i res2 s2 heq2
          have hMb := IH.1 b (s0.restore s.pos) res2 s2 heq2
          have hinp0 : s0.input = s.input := hMa.1.1
          have hinp2 : s2.input = s.input := by
            have := hMb.1.1
            simpa [hinp0] using this
          have hpres : MemoPres s.memos s2.memos :=
            memoPres_trans hMa.1.2.1 (by simpa using hMb.1.2.1)
          have hOKc : MemoOK s.memos → MemoOK s2.memos ∧ (res2.matched = false → s2.pos = s.pos) := by
            intro hOK
            have h0 := hMa.1.2.2 hOK
            have h1 := hMb.1.2.2 (by simpa using h0.1)
            exact ⟨h1.1, fun hf => by simpa using h1.2 hf⟩
          have hBc : WFg g → WFr a → WFr b → PostB s s2 s.input.length := by
            intro hg ha hb
            intro hbnd hp
            have hB0 := hMa.2 hg ha hbnd hp
            have hB1 := hMb.2 hg hb
            simp only [restore_input, hinp0] at hB1
            exact hB1 (by simpa using hB0.1) (by simp only [restore_pos]; omega)
          split at h
          · rename_i hmt2
            simp only [Option.some.injEq, Prod.mk.injEq] at h
            obtain ⟨hres, hs⟩ := h; subst hres; subst hs
            refine ⟨⟨hinp2, hpres, fun hOK => ?_⟩, fun hg hr => ?_⟩
            · have := hOKc hOK
              exact ⟨this.1, fun hf => by rw [hmt2] at hf; cases hf⟩
            · cases hr with
              | either a b ha hb => exact hBc hg ha hb
          · rename_i hmt2
            simp only [Option.some.injEq, Prod.mk.injEq] at h
            obtain ⟨hres, hs⟩ := h; subst hres; subst hs
            refine ⟨⟨by simpa using hinp2, by simpa using hpres, fun hOK => ?_⟩, fun hg hr => ?_⟩
            · exact ⟨by simpa using (hOKc hOK).1, fun _ => by simp⟩
            · cases hr with
              | either a b ha hb =>
                intro hbnd hp
                have := hBc hg ha hb hbnd hp
                exact ⟨by simpa using this.1, by simpa using hp⟩
  | branchN rs =>
    simp only [matchRule] at h
    have hO := IH.2.2.1 rs s.pos s res s1 rfl h
    refine ⟨hO.1, fun hg hr => ?_⟩
    cases hr with
    | branchN rs hrs => exact hO.2 hg hrs
  | seqN rs =>
    simp only [matchRule] at h
    have hS := IH.2.2.2.1 rs s.pos none s res s1 h
    refine ⟨hS.1, fun hg hr => ?_⟩
    cases hr with
    | seqN rs hrs =>
      intro hbnd hp
      exact hS.2 hg hrs hp hbnd hp
  | star r1 =>
    simp only [matchRule] at h
    have hS := IH.2.2.2.2.1 r1 s res s1 h
    refine ⟨hS.1.1, fun hg hr => ?_⟩
    cases hr with
    | star r1 hr1 => exact hS.2 hg hr1
  | plusR r1 =>
    simp only [matchRule] at h
    split at h
    · cases h
    · rename_i res0 s0 heq
      have hM := IH.1 r1 s res0 s0 heq
      split at h
      · rename_i hmt
        have hP := IH.2.2.2.2.2.1 r1 res0.value s0 res s1 h
        have hinp0 : s0.input = s.input := hM.1.1
        have hinp1 : s1.input = s.input := by
          have := hP.1.1.1
          simpa [hinp0] using this
        refine ⟨⟨hinp1, memoPres_trans hM.1.2.1 hP.1.1.2.1, fun hOK => ?_⟩, fun hg hr => ?_⟩
        · have h0 := hM.1.2.2 hOK
          have h1 := hP.1.1.2.2 h0.1
          exact ⟨h1.1, fun hf => by rw [hP.1.2] at hf; cases hf⟩
        · cases hr with
          | plusR r1 hr1 =>
            intro hbnd hp
            have hB0 := hM.2 hg hr1 hbnd hp
            have hB1 := hP.2 hg hr1
            rw [hinp0] at hB1
            exact hB1 hB0.1 hB0.2
      · rename_i hmt
        simp only [Option.some.injEq, Prod.mk.injEq] at h
        obtain ⟨hres, hs⟩ := h; subst hres; subst hs
        have hinp0 : s0.input = s.input := hM.1.1
        refine ⟨⟨by simpa using hinp0, by simpa using hM.1.2.1, fun hOK => ?_⟩, fun hg hr => ?_⟩
        · exact ⟨by simpa using (hM.1.2.2 hOK).1, fun _ => by simp⟩
        · cases hr with
          | plusR r1 hr1 =>
            intro hbnd hp
            have hB0 := hM.2 hg hr1 hbnd hp
            exact ⟨by simpa using hB0.1, by simpa using hp⟩
  | manyR mn mx r1 f =>
    simp only [matchRule] at h
    split at h
    · cases h
    · rename_i results s0 heq
      have hMy := IH.2.2.2.2.2.2.1 r1 mx [] s results s0 heq
      split at h
      · simp only [Option.some.injEq, Prod.mk.injEq] at h
        obtain ⟨hres, hs⟩ := h; subst hres; subst hs
        refine ⟨⟨by simpa using hMy.1.1, by simpa using hMy.1.2.1, fun hOK => ?_⟩,
          fun hg hr => ?_⟩
        · exact ⟨by simpa using hMy.1.2.2 hOK, fun _ => by simp⟩
        · cases hr with
          | manyR mn mx r1 f hr1 =>
            intro hbnd hp
            have hB0 := hMy.2 hg hr1 hbnd hp
            exact ⟨by simpa using hB0.1, by simpa using hp⟩
      · simp only [Option.some.injEq, Prod.mk.injEq] at h
        obtain ⟨hres, hs⟩ := h; subst hres; subst hs
        refine ⟨⟨hMy.1.1, hMy.1.2.1, fun hOK => ⟨hMy.1.2.2 hOK, fun hf => by cases hf⟩⟩,
          fun hg hr => ?_⟩
        cases hr with
        | manyR mn mx r1 f hr1 => exact hMy.2 hg hr1
  | maybeR r1 =>
    simp only [matchRule] at h
    split at h
    · cases h
    · rename_i res0 s0 heq
      have hM := IH.1 r1 s res0 s0 heq
      split at h
      · simp only [Option.some.injEq, Prod.mk.injEq] at h
        obtain ⟨hres, hs⟩ := h; subst hres; subst hs
        refine ⟨⟨hM.1.1, hM.1.2.1, fun hOK => ⟨(hM.1.2.2 hOK).1, fun hf => by cases hf⟩⟩,
          fun hg hr => ?_⟩
        cases hr with
        | maybeR r1 hr1 => exact hM.2 hg hr1
      · simp only [Option.some.injEq, Prod.mk.injEq] at h
        obtain ⟨hres, hs⟩ := h; subst hres; subst hs
        have hinp0 : s0.input = s.input := hM.1.1
        refine ⟨⟨by simpa using hinp0, by simpa using hM.1.2.1, fun hOK => ?_⟩, fun hg hr => ?_⟩
        · exact ⟨by simpa using (hM.1.2.2 hOK).1, fun hf => by cases hf⟩
        · cases hr with
          | maybeR r1 hr1 =>
            intro hbnd hp
            have hB0 := hM.2 hg hr1 hbnd hp
            exact ⟨by simpa using hB0.1, by simpa using hp⟩
  | checkR r1 =>
    simp only [matchRule] at h
    split at h
    · cases h
    · rename_i res0 s0 heq
      have hM := IH.1 r1 s res0 s0 heq
      simp only [Option.some.injEq, Prod.mk.injEq] at h
      obtain ⟨hres, hs⟩ := h; subst hres; subst hs
      have hinp0 : s0.input = s.input := hM.1.1
      refine ⟨⟨by simpa using hinp0, by simpa using hM.1.2.1, fun hOK => ?_⟩, fun hg hr => ?_⟩
      · exact ⟨by simpa using (hM.1.2.2 hOK).1, fun _ => by simp⟩
      · cases hr with
        | checkR r1 hr1 =>
          intro hbnd hp
          have hB0 := hM.2 hg hr1 hbnd hp
          exact ⟨by simpa using hB0.1, by simpa using hp⟩
  | notR r1 =>
    simp only [matchRule] at h
    split at h
    · simp only [Option.some.injEq, Prod.mk.injEq] at h
      obtain ⟨hres, hs⟩ := h; subst hres; subst hs
      exact ⟨postA_self s _, fun _ _ => postB_self s _⟩
    · split at h
      · cases h
      · rename_i res0 s0 heq
        have hM := IH.1 r1 s res0 s0 heq
        simp only [Option.some.injEq, Prod.mk.injEq] at h
        obtain ⟨hres, hs⟩ := h; subst hres; subst hs
        have hinp0 : s0.input = s.input := hM.1.1
        refine ⟨⟨by simpa using hinp0, by simpa using hM.1.2.1, fun hOK => ?_⟩, fun hg hr => ?_⟩
        · exact ⟨by simpa using (hM.1.2.2 hOK).1, fun _ => by simp⟩
        · cases hr with
          | notR r1 hr1 =>
            intro hbnd hp
            have hB0 := hM.2 hg hr1 hbnd hp
            exact ⟨by simpa using hB0.1, by simpa using hp⟩
  | notByte b =>
    simp only [matchRule] at h
    split at h
    · simp only [Option.some.injEq, Prod.mk.injEq] at h
      obtain ⟨hres, hs⟩ := h; subst hres; subst hs
      exact ⟨postA_self s _, fun _ _ => postB_self s _⟩
    · simp only [Option.some.injEq, Prod.mk.injEq] at h
      obtain ⟨hres, hs⟩ := h; subst hres; subst hs
      exact ⟨⟨rfl, memoPres_refl _, fun hOK => ⟨hOK, fun _ => rfl⟩⟩, fun _ _ => postB_self s _⟩
  | refR i =>
    simp only [matchRule] at h
    split at h
    · cases h
    · rename_i b hbody
      split at h
      · rename_i e heq
        simp only [Option.some.injEq, Prod.mk.injEq] at h
        obtain ⟨hres, hs⟩ := h; subst hres; subst hs
        have heq2 : memoLookup s.memos (s.pos, i) = some e := heq
        refine ⟨⟨rfl, ?_, fun hOK => ?_⟩, fun hg hr => ?_⟩
        · exact memoPres_set_of_eq _ heq2 rfl rfl
        · refine ⟨memoOK_set hOK (fun hf => hOK s.pos i e heq2 hf), fun hf => ?_⟩
          exact hOK s.pos i e heq2 hf
        · intro hbnd hp
          have hEnd : e.endPos ≤ s.input.length := hbnd (s.pos, i) e heq2
          exact ⟨memoBnd_set hbnd hEnd, hEnd⟩
      · rename_i heq
        have heq2 : memoLookup s.memos (s.pos, i) = none := heq
        split at h
        · rename_i hlr
          split at h
          · cases h
          · rename_i resg sg heqg
            simp only [Option.some.injEq, Prod.mk.injEq] at h
            obtain ⟨hres, hs⟩ := h; subst hres; subst hs
            have hG := IH.2.2.2.2.2.2.2 b i s.pos { matched := false } s.pos _ resg sg heqg
            have hinpg : sg.input = s.input := by simpa using hG.1.1
            refine ⟨⟨by simpa using hinpg, ?_, fun hOK => ?_⟩, fun hg hr => ?_⟩
            · intro k e hl
              have hkne : k ≠ (s.pos, i) := by
                rintro rfl
                rw [hl] at heq2
                cases heq2
              obtain ⟨e3, hl3, her3, hee3⟩ := hG.1.2 k e hkne (by
                show memoLookup (memoSet s.memos (s.pos, i) _) k = some e
                rw [memoLookup_set_ne s.memos _ k _ hkne]
                exact hl)
              exact ⟨e3, by simpa using hl3, her3, hee3⟩
            · have hOKseed : MemoOK (memoSet s.memos (s.pos, i)
                  { res := { matched := false }, endPos := s.pos, used := 0 }) :=
                memoOK_set hOK (fun _ => rfl)
              have := hG.2.1 (by simpa using hOKseed) le_rfl (fun _ => rfl)
              exact ⟨this.1, fun hf => by simpa using this.2 hf⟩
            · intro hbnd hp
              have hBseed : MemoBnd (memoSet s.memos (s.pos, i)
                  { res := { matched := false }, endPos := s.pos, used := 0 }) s.input.length :=
                memoBnd_set hbnd hp
              have hB1 := hG.2.2.2 hg (hg i b hbody)
              simp only at hB1
              have := hB1 (by simpa using hBseed) hp hp
              exact ⟨by simpa using this.1, by simpa using this.2⟩
        · split at h
          · rename_i e heq3
            cases heq3
          · split at h
            · cases h
            · rename_i res0 sb heqb
              simp only [Option.some.injEq, Prod.mk.injEq] at h
              obtain ⟨hres, hs⟩ := h; subst hres; subst hs
              have hM := IH.1 b { s with curRef := some i } res0 sb heqb
              have hinpb : sb.input = s.input := by simpa using hM.1.1
              refine ⟨⟨by simpa using hinpb, ?_, fun hOK => ?_⟩, fun hg hr => ?_⟩
              · intro k e hl
                have hkne : k ≠ (s.pos, i) := by
                  rintro rfl
                  rw [hl] at heq2
                  cases heq2
                obtain ⟨e3, hl3, her3, hee3⟩ := hM.1.2.1 k e (by simpa using hl)
                refine ⟨e3, ?_, her3, hee3⟩
                show memoLookup (memoSet sb.memos (s.pos, i) _) k = some e3
                rw [memoLookup_set_ne sb.memos _ k _ hkne]
                exact hl3
              · have h0 := hM.1.2.2 (by simpa using hOK)
                refine ⟨memoOK_set (by simpa using h0.1) (fun hf => by simpa using h0.2 hf),
                  fun hf => by simpa using h0.2 hf⟩
              · intro hbnd hp
                have hB0 := hM.2 hg (hg i b hbody)
                simp only at hB0
                have hB0e := hB0 (by simpa using hbnd) (by simpa using hp)
                refine ⟨memoBnd_set (by simpa using hB0e.1) (by simpa using hB0e.2),
                  by simpa using hB0e.2⟩
  | scopeR r1 =>
    simp only [matchRule] at h
    split at h
    · cases h
    · rename_i res0 s0 heq
      have hM := IH.1 r1 { s with values := Vals.compact [] } res0 s0 heq
      simp only [Option.some.injEq, Prod.mk.injEq] at h
      obtain ⟨hres, hs⟩ := h; subst hres; subst hs
      refine ⟨⟨by simpa using hM.1.1, by simpa using hM.1.2.1, fun hOK => ?_⟩, fun hg hr => ?_⟩
      · have h0 := hM.1.2.2 (by simpa using hOK)
        exact ⟨by simpa using h0.1, fun hf => by simpa using h0.2 hf⟩
      · cases hr with
        | scopeR r1 hr1 =>
          intro hbnd hp
          have hB0 := hM.2 hg hr1
          simp only at hB0
          have := hB0 (by simpa using hbnd) (by simpa using hp)
          exact ⟨by simpa using this.1, by simpa using this.2⟩
  | named n r1 =>
    simp only [matchRule] at h
    split at h
    · cases h
    · rename_i res0 s0 heq
      have hM := IH.1 r1 s res0 s0 heq
      split at h
      · rename_i hmt
        simp only [Option.some.injEq, Prod.mk.injEq] at h
        obtain ⟨hres, hs⟩ := h; subst hres; subst hs
        refine ⟨⟨by simpa using hM.1.1, by simpa using hM.1.2.1, fun hOK => ?_⟩, fun hg hr => ?_⟩
        · exact ⟨by simpa using (hM.1.2.2 hOK).1, fun hf => by rw [hmt] at hf; cases hf⟩
        · cases hr with
          | named n r1 hr1 =>
            intro hbnd hp
            have := hM.2 hg hr1 hbnd hp
            exact ⟨by simpa using this.1, by simpa using this.2⟩
      · simp only [Option.some.injEq, Prod.mk.injEq] at h
        obtain ⟨hres, hs⟩ := h; subst hres; subst hs
        refine ⟨hM.1, fun hg hr => ?_⟩
        cases hr with
        | named n r1 hr1 => exact hM.2 hg hr1
  | actionR r1 f =>
    simp only [matchRule] at h
    split at h
    · cases h
    · rename_i res0 s0 heq
      have hM := IH.1 r1 s res0 s0 heq
      split at h
      · rename_i hmt
        simp only [Option.some.injEq, Prod.mk.injEq] at h
        obtain ⟨hres, hs⟩ := h; subst hres; subst hs
        refine ⟨⟨hM.1.1, hM.1.2.1, fun hOK => ⟨(hM.1.2.2 hOK).1, fun hf => by simp [hmt] at hf⟩⟩,
          fun hg hr => ?_⟩
        cases hr with
        | actionR r1 f hr1 => exact hM.2 hg hr1
      · rename_i hmt
        simp only [Option.some.injEq, Prod.mk.injEq] at h
        obtain ⟨hres, hs⟩ := h; subst hres; subst hs
        refine ⟨⟨by simpa using hM.1.1, by simpa using hM.1.2.1, fun hOK => ?_⟩, fun hg hr => ?_⟩
        · exact ⟨by simpa using (hM.1.2.2 hOK).1, fun _ => by simp⟩
        · cases hr with
          | actionR r1 f hr1 =>
            intro hbnd hp
            have hB0 := hM.2 hg hr1 hbnd hp
            exact ⟨by simpa using hB0.1, by simpa using hp⟩
  | applyR r1 build =>
    simp only [matchRule] at h
    split at h
    · cases h
    · rename_i res0 s0 heq
      have hM := IH.1 r1 s res0 s0 heq
      split at h
      · rename_i hmt
        simp only [Option.some.injEq, Prod.mk.injEq] at h
        obtain ⟨hres, hs⟩ := h; subst hres; subst hs
        refine ⟨⟨hM.1.1, hM.1.2.1, fun hOK => ⟨(hM.1.2.2 hOK).1, fun hf => by simp [hmt] at hf⟩⟩,
          fun hg hr => ?_⟩
        cases hr with
        | applyR r1 build hr1 => exact hM.2 hg hr1
      · rename_i hmt
        simp only [Option.some.injEq, Prod.mk.injEq] at h
        obtain ⟨hres, hs⟩ := h; subst hres; subst hs
        refine ⟨⟨by simpa using hM.1.1, by simpa using hM.1.2.1, fun hOK => ?_⟩, fun hg hr => ?_⟩
        · exact ⟨by simpa using (hM.1.2.2 hOK).1, fun _ => by simp⟩
        · cases hr with
          | applyR r1 build hr1 =>
            intro hbnd hp
            have hB0 := hM.2 hg hr1 hbnd hp
            exact ⟨by simpa using hB0.1, by simpa using hp⟩
  | transform r1 f =>
    simp only [matchRule] at h
    split at h
    · cases h
    · rename_i res0 s0 heq
      have hM := IH.1 r1 s res0 s0 heq
      split at h
      · rename_i hmt
        simp only [Option.some.injEq, Prod.mk.injEq] at h
        obtain ⟨hres, hs⟩ := h; subst hres; subst hs
        refine ⟨⟨hM.1.1, hM.1.2.1, fun hOK => ⟨(hM.1.2.2 hOK).1, fun hf => by simp [hmt] at hf⟩⟩,
          fun hg hr => ?_⟩
        cases hr with
        | transform r1 f hr1 => exact hM.2 hg hr1
      · rename_i hmt
        simp only [Option.some.injEq, Prod.mk.injEq] at h
        obtain ⟨hres, hs⟩ := h; subst hres; subst hs
        refine ⟨⟨by simpa using hM.1.1, by simpa using hM.1.2.1, fun hOK => ?_⟩, fun hg hr => ?_⟩
        · exact ⟨by simpa using (hM.1.2.2 hOK).1, fun _ => by simp⟩
        · cases hr with
          | transform r1 f hr1 =>
            intro hbnd hp
            have hB0 := hM.2 hg hr1 hbnd hp
            exact ⟨by simpa using hB0.1, by simpa using hp⟩
  | captureR r1 =>
    simp only [matchRule] at h
    split at h
    · cases h
    · rename_i res0 s0 heq
      have hM := IH.1 r1 s res0 s0 heq
      split at h
      · rename_i hmt
        simp only [Option.some.injEq, Prod.mk.injEq] at h
        obtain ⟨hres, hs⟩ := h; subst hres; subst hs
        refine ⟨⟨hM.1.1, hM.1.2.1, fun hOK => ⟨(hM.1.2.2 hOK).1, fun hf => by simp [hmt] at hf⟩⟩,
          fun hg hr => ?_⟩
        cases hr with
        | captureR r1 hr1 => exact hM.2 hg hr1
      · rename_i hmt
        simp only [Option.some.injEq, Prod.mk.injEq] at h
        obtain ⟨hres, hs⟩ := h; subst hres; subst hs
        refine ⟨⟨by simpa using hM.1.1, by simpa using hM.1.2.1, fun hOK => ?_⟩, fun hg hr => ?_⟩
        · exact ⟨by simpa using (hM.1.2.2 hOK).1, fun _ => by simp⟩
        · cases hr with
          | captureR r1 hr1 =>
            intro hbnd hp
            have hB0 := hM.2 hg hr1 hbnd hp
            exact ⟨by simpa using hB0.1, by simpa using hp⟩
  | checkAction f =>
    simp only [matchRule] at h
    split at h
    · simp only [Option.some.injEq, Prod.mk.injEq] at h
      obtain ⟨hres, hs⟩ := h; subst hres; subst hs
      exact ⟨postA_self s _, fun _ _ => postB_self s _⟩
    · simp only [Option.some.injEq, Prod.mk.injEq] at h
      obtain ⟨hres, hs⟩ := h; subst hres; subst hs
      exact ⟨postA_self s _, fun _ _ => postB_self s _⟩
  | eos =>
    simp only [matchRule, Option.some.injEq, Prod.mk.injEq] at h
    obtain ⟨hres, hs⟩ := h; subst hres; subst hs
    exact ⟨⟨rfl, memoPres_refl _, fun hOK => ⟨hOK, fun _ => rfl⟩⟩, fun _ _ => postB_self s _⟩
  | scanR f =>
    simp only [matchRule] at h
    split at h
    · simp only [Option.some.injEq, Prod.mk.injEq] at h
      obtain ⟨hres, hs⟩ := h; subst hres; subst hs
      exact ⟨postA_self s _, fun _ _ => postB_self s _⟩
    · rename_i hlt
      split at h
      · simp only [Option.some.injEq, Prod.mk.injEq] at h
        obtain ⟨hres, hs⟩ := h; subst hres; subst hs
        exact ⟨postA_self s _, fun _ _ => postB_self s _⟩
      · rename_i hne
        simp only [Option.some.injEq, Prod.mk.injEq] at h
        obtain ⟨hres, hs⟩ := h; subst hres; subst hs
        refine ⟨postA_advance s _ _ _ rfl, fun hg hr => postB_advance2 s _ _ ?_⟩
        cases hr with
        | scanR f hf =>
          rcases hf s.cur with hm1 | ⟨hge, hle⟩
          · exact absurd hm1 hne
          · simp only [cur_length] at hle
            omega
  | ptab t =>
    simp only [matchRule] at h
    split at h
    · simp only [Option.some.injEq, Prod.mk.injEq] at h
      obtain ⟨hres, hs⟩ := h; subst hres; subst hs
      exact ⟨postA_self s _, fun _ _ => postB_self s _⟩
    · split at h
      · simp only [Option.some.injEq, Prod.mk.injEq] at h
        obtain ⟨hres, hs⟩ := h; subst hres; subst hs
        exact ⟨postA_self s _, fun _ _ => postB_self s _⟩
      · rename_i r1 heq
        have hM := IH.1 r1 s res s1 h
        refine ⟨hM.1, fun hg hr => ?_⟩
        cases hr with
        | ptab t ht =>
          obtain ⟨p, hp, hpr⟩ := lookupByte_mem t s.byteAt r1 heq
          exact hM.2 hg (hpr ▸ ht p hp)
  | both a b =>
    simp only [matchRule] at h
    split at h
    · cases h
    · rename_i res0 s0 heq
      have hMa := IH.1 a s res0 s0 heq
      split at h
      · rename_i hmt
        split at h
        · cases h
        · rename_i res2 s2 heq2
          have hMb := IH.1 b s0 res2 s2 heq2
          have hinp0 : s0.input = s.input := hMa.1.1
          have hinp2 : s2.input = s.input := by
            have := hMb.1.1
            simpa [hinp0] using this
          have hpres : MemoPres s.memos s2.memos :=
            memoPres_trans hMa.1.2.1 hMb.1.2.1
          have hOKc : MemoOK s.memos → MemoOK s2.memos := by
            intro hOK
            exact (hMb.1.2.2 (hMa.1.2.2 hOK).1).1
          have hBc : WFg g → WFr a → WFr b → PostB s s2 s.input.length := by
            intro hg ha hb
            intro hbnd hp
            have hB0 := hMa.2 hg ha hbnd hp
            have hB1 := hMb.2 hg hb
            rw [hinp0] at hB1
            exact hB1 hB0.1 hB0.2
          split at h
          · rename_i hmt2
            simp only [Option.some.injEq, Prod.mk.injEq] at h
            obtain ⟨hres, hs⟩ := h; subst hres; subst hs
            refine ⟨⟨hinp2, hpres, fun hOK => ⟨hOKc hOK, fun hf => by cases hf⟩⟩, fun hg hr => ?_⟩
            cases hr with
            | both a b ha hb => exact hBc hg ha hb
          · rename_i hmt2
            simp only [Option.some.injEq, Prod.mk.injEq] at h
            obtain ⟨hres, hs⟩ := h; subst hres; subst hs
            refine ⟨⟨by simpa using hinp2, by simpa using hpres, fun hOK => ?_⟩, fun hg hr => ?_⟩
            · exact ⟨by simpa using hOKc hOK, fun _ => by simp⟩
            · cases hr with
              | both a b ha hb =>
                intro hbnd hp
                have := hBc hg ha hb hbnd hp
                exact ⟨by simpa using this.1, by simpa using hp⟩
      · rename_i hmt
        simp only [Option.some.injEq, Prod.mk.injEq] at h
        obtain ⟨hres, hs⟩ := h; subst hres; subst hs
        have hinp0 : s0.input = s.input := hMa.1.1
        refine ⟨⟨by simpa using hinp0, by simpa using hMa.1.2.1, fun hOK => ?_⟩, fun hg hr => ?_⟩
        · exact ⟨by simpa using (hMa.1.2.2 hOK).1, fun _ => by simp⟩
        · cases hr with
          | both a b ha hb =>
            intro hbnd hp
            have hB0 := hMa.2 hg ha hbnd hp
            exact ⟨by simpa using hB0.1, by simpa using hp⟩
  | three a b c =>
    simp only [matchRule] at h
    split at h
    · cases h
    · rename_i res0 s0 heq
      have hMa := IH.1 a s res0 s0 heq
      have hinp0 : s0.input = s.input := hMa.1.1
      split at h
      · rename_i hmt
        split at h
        · cases h
        · rename_i res2 s2 heq2
          have hMb := IH.1 b s0 res2 s2 heq2
          have hinp2 : s2.input = s.input := by
            have := hMb.1.1
            simpa [hinp0] using this
          split at h
          · rename_i hmt2
            split at h
            · cases h
            · rename_i res3 s3 heq3
              have hMc := IH.1 c s2 res3 s3 heq3
              have hinp3 : s3.input = s.input := by
                have := hMc.1.1
                simpa [hinp2] using this
              have hpres : MemoPres s.memos s3.memos :=
                memoPres_trans (memoPres_trans hMa.1.2.1 hMb.1.2.1) hMc.1.2.1
              have hOKc : MemoOK s.memos → MemoOK s3.memos := by
                intro hOK
                exact (hMc.1.2.2 (hMb.1.2.2 (hMa.1.2.2 hOK).1).1).1
              have hBc : WFg g → WFr a → WFr b → WFr c → PostB s s3 s.input.length := by
                intro hg ha hb hc
                intro hbnd hp
                have hB0 := hMa.2 hg ha hbnd hp
                have hB1 := hMb.2 hg hb
                rw [hinp0] at hB1
                have hB1e := hB1 hB0.1 hB0.2
                have hB2 := hMc.2 hg hc
                rw [hinp2] at hB2
                exact hB2 hB1e.1 hB1e.2
              split at h
              · rename_i hmt3
                simp only [Option.some.injEq, Prod.mk.injEq] at h
                obtain ⟨hres, hs⟩ := h; subst hres; subst hs
                refine ⟨⟨hinp3, hpres, fun hOK => ⟨hOKc hOK, fun hf => by cases hf⟩⟩,
                  fun hg hr => ?_⟩
                cases hr with
                | three a b c ha hb hc => exact hBc hg ha hb hc
              · rename_i hmt3
                simp only [Option.some.injEq, Prod.mk.injEq] at h
                obtain ⟨hres, hs⟩ := h; subst hres; subst hs
                refine ⟨⟨by simpa using hinp3, by simpa using hpres, fun hOK => ?_⟩,
                  fun hg hr => ?_⟩
                · exact ⟨by simpa using hOKc hOK, fun _ => by simp⟩
                · cases hr with
                  | three a b c ha hb hc =>
                    intro hbnd hp
                    have := hBc hg ha hb hc hbnd hp
                    exact ⟨by simpa using this.1, by simpa using hp⟩
          · rename_i hmt2
            simp only [Option.some.injEq, Prod.mk.injEq] at h
            obtain ⟨hres, hs⟩ := h; subst hres; subst hs
            have hpres : MemoPres s.memos s2.memos :=
              memoPres_trans hMa.1.2.1 hMb.1.2.1
            refine ⟨⟨by simpa using hinp2, by simpa using hpres, fun hOK => ?_⟩, fun hg hr => ?_⟩
            · exact ⟨by simpa using (hMb.1.2.2 (hMa.1.2.2 hOK).1).1, fun _ => by simp⟩
            · cases hr with
              | three a b c ha hb hc =>
                intro hbnd hp
                have hB0 := hMa.2 hg ha hbnd hp
                have hB1 := hMb.2 hg hb
                rw [hinp0] at hB1
                have hB1e := hB1 hB0.1 hB0.2
                exact ⟨by simpa using hB1e.1, by simpa using hp⟩
      · rename_i hmt
        simp only [Option.some.injEq, Prod.mk.injEq] at h
        obtain ⟨hres, hs⟩ := h; subst hres; subst hs
        refine ⟨⟨by simpa using hinp0, by simpa using hMa.1.2.1, fun hOK => ?_⟩, fun hg hr => ?_⟩
        · exact ⟨by simpa using (hMa.1.2.2 hOK).1, fun _ => by simp⟩
        · cases hr with
          | three a b c ha hb hc =>
            intro hbnd hp
            have hB0 := hMa.2 hg ha hbnd hp
            exact ⟨by simpa using hB0.1, by simpa using hp⟩

/-- The combined induction over fuel: every interpreter function satisfies
its postcondition package. -/
theorem allSteps (g : Grammar) : ∀ fuel, AllSteps g fuel := by
  intro fuel
  induction fuel with
  | zero =>
    refine ⟨fun r s res s1 h => ?_, fun rs save s res s1 hps h => ?_,
      fun rs save s res s1 hps h => ?_, fun rs mark acc s res s1 h => ?_,
      fun r s res s1 h => ?_, fun r val s res s1 h => ?_,
      fun r mx acc s results s1 h => ?_, fun b i P lr lp s res s1 h => ?_⟩ <;>
      simp [matchRule, orLoop, branchLoop, seqLoop, starLoop, plusLoop, manyLoop,
        growLoop] at h
  | succ fuel ih =>
    exact ⟨stepM_succ g fuel ih, stepOr_succ g fuel ih, stepBr_succ g fuel ih,
      stepSeq_succ g fuel ih, stepStar_succ g fuel ih, stepPlus_succ g fuel ih,
      stepMany_succ g fuel ih, stepGrow_succ g fuel ih⟩

/-- The postcondition package of a completed match call. -/
theorem matchRule_post (g : Grammar) (fuel : Nat) (r : Rule) (s : State) (res : Result)
    (s1 : State) (h : matchRule g fuel r s = some (res, s1)) :
    PostA s res s1 s.pos ∧ (WFg g → WFr r → PostB s s1 s.input.length) :=
  (allSteps g fuel).1 r s res s1 h

/-- After any completed matchRef call, the memo holds an entry at the call
key whose result and end position are exactly what the call returned. -/
theorem refPost (g : Grammar) (fuel : Nat) (i : Nat) (s : State) (res : Result) (s1 : State)
    (h : matchRule g (fuel + 1) (.refR i) s = some (res, s1)) :
    ∃ e, memoLookup s1.memos (s.pos, i) = some e ∧ e.res = res ∧ e.endPos = s1.pos := by
  simp only [matchRule] at h
  split at h
  · cases h
  · rename_i b hbody
    split at h
    · rename_i e heq
      simp only [Option.some.injEq, Prod.mk.injEq] at h
      obtain ⟨hres, hs⟩ := h; subst hres; subst hs
      exact ⟨{ e with used := e.used + 1 }, by simpa using memoLookup_set_self s.memos _ _,
        rfl, rfl⟩
    · rename_i heq
      split at h
      · rename_i hlr
        split at h
        · cases h
        · rename_i resg sg heqg
          simp only [Option.some.injEq, Prod.mk.injEq] at h
          obtain ⟨hres, hs⟩ := h; subst hres; subst hs
          have hG := (allSteps g fuel).2.2.2.2.2.2.2 b i s.pos { matched := false } s.pos
            _ resg sg heqg
          have hseed := memoLookup_set_self s.memos (s.pos, i)
            { res := { matched := false }, endPos := s.pos, used := 0 }
          obtain ⟨e, hl, hr, he⟩ := hG.2.2.1 _ (by simpa using hseed) rfl rfl
          exact ⟨e, by simpa using hl, hr, by simpa using he⟩
      · split at h
        · rename_i e heq3
          cases heq3
        · split at h
          · cases h
          · rename_i res0 sb heqb
            simp only [Option.some.injEq, Prod.mk.injEq] at h
            obtain ⟨hres, hs⟩ := h; subst hres; subst hs
            exact ⟨_, by simpa using memoLookup_set_self sb.memos _ _, rfl, rfl⟩

/-- The star loop always matches, and its value is the value carried by
the final, failing attempt of the sub-rule (run from the position the loop
finally restores). -/
theorem starLoop_value (g : Grammar) : ∀ fuel r s res s1,
    starLoop g fuel r s = some (res, s1) →
    res.matched = true ∧
    ∃ m s0 sb, matchRule g m r s0 = some ({ matched := false, value := res.value }, sb) ∧
      s1.pos = s0.pos := by
  intro fuel
  induction fuel with
  | zero => intro r s res s1 h; simp [starLoop] at h
  | succ fuel ih =>
    intro r s res s1 h
    simp only [starLoop] at h
    split at h
    · cases h
    · rename_i res0 s0 heq
      split at h
      · exact ih r s0 res s1 h
      · rename_i hmt
        simp only [Option.some.injEq, Prod.mk.injEq] at h
        obtain ⟨hres, hs⟩ := h; subst hres; subst hs
        refine ⟨rfl, fuel, s, s0, ?_, by simp⟩
        show matchRule g fuel r s = some ({ matched := false, value := res0.value }, s0)
        have hres0 : res0 = { matched := false, value := res0.value } := by
          cases res0 with
          | mk m v =>
            simp only [Bool.not_eq_true] at hmt
            simp [hmt]
        rw [← hres0]
        exact heq

/-- The many loop never collects past a positive maximum, starting from a
partial collection strictly below it. -/
theorem manyLoop_len (g : Grammar) : ∀ fuel r mx acc s results s1,
    manyLoop g fuel r mx acc s = some (results, s1) →
    mx ≠ -1 → (acc.length : Int) < mx → (results.length : Int) ≤ mx := by
  intro fuel
  induction fuel with
  | zero => intro r mx acc s results s1 h; simp [manyLoop] at h
  | succ fuel ih =>
    intro r mx acc s results s1 h hne hlt
    simp only [manyLoop] at h
    split at h
    · cases h
    · rename_i res0 s0 heq
      split at h
      · split at h
        · rename_i hbreak
          simp only [Option.some.injEq, Prod.mk.injEq] at h
          obtain ⟨hres, hs⟩ := h; subst hres; subst hs
          exact le_of_eq hbreak.2
        · rename_i hnb
          refine ih r mx (acc ++ [res0.value]) s0 results s1 h hne ?_
          have hlen : ((acc ++ [res0.value]).length : Int) = (acc.length : Int) + 1 := by
            simp
          have hneq : ¬ ((acc ++ [res0.value]).length : Int) = mx := fun hc => hnb ⟨hne, hc⟩
          omega
      · simp only [Option.some.injEq, Prod.mk.injEq] at h
        obtain ⟨hres, hs⟩ := h; subst hres; subst hs
        omega

/-- The end positions recorded by the seed-growth loop, in order.  The
function mirrors growLoop case for case, dropping the returned result and
collecting instead each end position the loop writes into the memo
entry. -/
def growTrace (g : Grammar) : Nat → Rule → Nat → Nat → Nat → State → List Nat
  | 0, _, _, _, _, _ => []
  | Nat.succ fuel, b, i, P, lastPos, s =>
    match matchRule g fuel b (s.restore P) with
    | none => []
    | some (res, s1) =>
      if s1.pos ≤ lastPos then []
      else s1.pos :: growTrace g fuel b i P s1.pos
        { s1 with memos := memoRecord s1.memos (P, i) res s1.pos }

/-- Each recorded end position strictly exceeds the previous one. -/
theorem growTrace_chain (g : Grammar) : ∀ fuel b i P lastPos s,
    List.Chain (· < ·) lastPos (growTrace g fuel b i P lastPos s) := by
  intro fuel
  induction fuel with
  | zero => intro b i P lastPos s; simp [growTrace]
  | succ fuel ih =>
    intro b i P lastPos s
    simp only [growTrace]
    split
    · simp
    · rename_i res s1 heq
      split
      · simp
      · rename_i hgt
        push_neg at hgt
        exact List.Chain.cons hgt (ih b i P s1.pos _)

/-- In a well-formed grammar every recorded end position stays within the
input. -/
theorem growTrace_le (g : Grammar) (hg : WFg g) : ∀ fuel b i P lastPos s, WFr b →
    MemoBnd s.memos s.input.length → P ≤ s.input.length →
    ∀ x ∈ growTrace g fuel b i P lastPos s, x ≤ s.input.length := by
  intro fuel
  induction fuel with
  | zero => intro b i P lastPos s _ _ _ x hx; simp [growTrace] at hx
  | succ fuel ih =>
    intro b i P lastPos s hwb hbnd hP x hx
    simp only [growTrace] at hx
    split at hx
    · cases hx
    · rename_i res s1 heq
      split at hx
      · cases hx
      · rename_i hgt
        have hM := matchRule_post g fuel b (s.restore P) res s1 heq
        have hB := hM.2 hg hwb
        simp only [restore_input, restore_pos] at hB
        have hBe := hB (by simpa using hbnd) hP
        have hinp : s1.input = s.input := by simpa using hM.1.1
        simp only [List.mem_cons] at hx
        rcases hx with rfl | hx
        · exact hBe.2
        · have hbnd2 : MemoBnd (memoRecord s1.memos (P, i) res s1.pos) s1.input.length := by
            rw [hinp]
            exact memoBnd_record (P, i) res hBe.1 hBe.2
          have hP2 : P ≤ s1.input.length := by rw [hinp]; exact hP
          have := ih b i P s1.pos { s1 with memos := memoRecord s1.memos (P, i) res s1.pos }
            hwb (by simpa using hbnd2) (by simpa using hP2) x hx
          simpa [hinp] using this

/-- A strictly increasing list of naturals starting above P and bounded by
L has at most L - P elements. -/
theorem chain_lt_length_le : ∀ (l : List Nat) (P L : Nat), List.Chain (· < ·) P l →
    (∀ x ∈ l, x ≤ L) → l.length ≤ L - P := by
  intro l
  induction l with
  | nil => intro P L _ _; simp
  | cons x t ih =>
    intro P L hc hb
    cases hc with
    | cons hPx hct =>
      have hxL : x ≤ L := hb x (by simp)
      have := ih x L hct (fun y hy => hb y (by simp [hy]))
      simp only [List.length_cons]
      omega

theorem getLastD_cons_nat (x d : Nat) (t : List Nat) :
    (x :: t).getLastD d = t.getLastD x := by
  cases t <;> rfl

/-- The final position of a completed seed-growth loop is the last
recorded end position (the seed position when nothing was recorded). -/
theorem growLoop_trace_pos (g : Grammar) : ∀ fuel b i P lastRes lastPos s res s1,
    growLoop g fuel b i P lastRes lastPos s = some (res, s1) →
    s1.pos = (growTrace g fuel b i P lastPos s).getLastD lastPos := by
  intro fuel
  induction fuel with
  | zero => intro b i P lastRes lastPos s res s1 h; simp [growLoop] at h
  | succ fuel ih =>
    intro b i P lastRes lastPos s res s1 h
    simp only [growLoop] at h
    simp only [growTrace]
    split at h
    · cases h
    · rename_i res0 s1b heq
      split at h
      · rename_i hle
        simp only [Option.some.injEq, Prod.mk.injEq] at h
        obtain ⟨hres, hs⟩ := h; subst hres; subst hs
        simp [hle]
      · rename_i hgt
        have := ih b i P res0 s1b.pos _ res s1 h
        rw [if_neg hgt, getLastD_cons_nat]
        exact this

/-! ## Concrete fixtures used by witnesses and counterexamples -/

/-- A grammar with no bound refs. -/
def g0 : Grammar := { body := fun _ => none, leftRec := fun _ => false }

/-- A grammar binding ref 0 to EOS. -/
def gE : Grammar := { body := fun i => if i == 0 then some .eos else none, leftRec := fun _ => false }

/-- A grammar binding ref 0 to a Named capture (no Scope around it). -/
def gN : Grammar :=
  { body := fun i => if i == 0 then some (.named "x" (.captureR (.str1 97))) else none,
    leftRec := fun _ => false }

/-- The classic left-recursive body: expr := expr "+" "1" | "1". -/
def bodyLR : Rule := .either (.three (.refR 0) (.str1 43) (.str1 49)) (.str1 49)

/-- A grammar binding ref 0 left-recursively to bodyLR. -/
def gLR : Grammar := { body := fun i => if i == 0 then some bodyLR else none, leftRec := fun i => i == 0 }

/-! ## The claims -/

/-- Claim C1, counterexample.  The claim states that Star's value is the
value of the last successful iteration (nil if zero iterations).  On input
"a", Star(Not(Capture(S("a")))) performs zero successful iterations (the
first attempt of the sub-rule already fails, second conjunct), yet the
returned value is the string "a", not nil (first conjunct): the source
returns the value carried by the failing attempt. -/
theorem star_value_claim_counterexample :
    (matchRule g0 10 (.star (.notR (.captureR (.str1 97)))) (initState [97])).map
      (fun p => (p.1, p.2.pos)) =
      some ({ matched := true, value := some (.bytes [97]) }, 0) ∧
    (matchRule g0 9 (.notR (.captureR (.str1 97))) (initState [97])).map
      (fun p => (p.1.matched, p.2.pos)) = some (false, 0) ∧
    some (Value.bytes [97]) ≠ (none : Val) :=
  ⟨by decide, by decide, by decide⟩

/-- Claim C1, amended.  Star(r).match never returns matched = false, and
the value of the result is the value carried by the final, failing attempt
of r (which is nil whenever that failing attempt carries no value — it is
not the value of the last successful iteration). -/
theorem star_never_fails_value_from_failed_attempt (g : Grammar) (fuel : Nat) (r : Rule)
    (s : State) (res : Result) (s1 : State)
    (h : matchRule g (fuel + 1) (.star r) s = some (res, s1)) :
    res.matched = true ∧
    ∃ m s0 sb, matchRule g m r s0 = some ({ matched := false, value := res.value }, sb) ∧
      s1.pos = s0.pos := by
  simp only [matchRule] at h
  exact starLoop_value g fuel r s res s1 h

theorem star_never_fails_value_from_failed_attempt_witness :
    matchRule g0 (9 + 1) (.star (.str1 97)) (initState [97]) =
      some ({ matched := true },
        { input := [97], pos := 1, memos := [], values := .compact [],
          curRef := none, maxPos := 1, maxRule := none }) ∧
    ({ matched := true } : Result).matched = true := by
  have h : matchRule g0 (9 + 1) (.star (.str1 97)) (initState [97]) =
      some ({ matched := true },
        { input := [97], pos := 1, memos := [], values := .compact [],
          curRef := none, maxPos := 1, maxRule := none }) := by decide
  exact ⟨h, (star_never_fails_value_from_failed_attempt g0 9 _ _ _ _ h).1⟩

/-- Claim C2.  For every rule of the embedded language and every state
whose memo table is well formed (as every table reachable in a parse is —
the empty initial table trivially so, preservation by allSteps), a match
that returns matched = false leaves the position exactly where it was. -/
theorem match_failure_restores_position (g : Grammar) (fuel : Nat) (r : Rule) (s : State)
    (res : Result) (s1 : State) (hok : MemoOK s.memos)
    (h : matchRule g fuel r s = some (res, s1)) (hf : res.matched = false) :
    s1.pos = s.pos :=
  ((matchRule_post g fuel r s res s1 h).1.2.2 hok).2 hf

theorem match_failure_restores_position_witness :
    matchRule g0 5 (.str1 98) (initState [97]) = some ({ matched := false }, initState [97]) ∧
    (initState [97]).pos = (initState [97]).pos := by
  have h : matchRule g0 5 (.str1 98) (initState [97]) =
      some ({ matched := false }, initState [97]) := by decide
  exact ⟨h, match_failure_restores_position g0 5 _ _ _ _
    (by intro p i e he; simp [memoLookup] at he) h rfl⟩

/-- Claim C3.  For a left-recursive ref matched at position P = s.pos in a
well-formed grammar, the end positions recorded in the memo entry during
seed growth (collected in order by growTrace, which mirrors growLoop) form
a strictly increasing chain above P, so the loop performs at most
input_size - P continuing iterations; the loop's final position is the
last recorded end position. -/
theorem leftrec_seed_growth_monotone_bounded (g : Grammar) (fuel : Nat) (b : Rule)
    (i : Nat) (s : State) (hg : WFg g) (hwb : WFr b)
    (hbnd : MemoBnd s.memos s.input.length) (hP : s.pos ≤ s.input.length) :
    List.Chain (· < ·) s.pos (growTrace g fuel b i s.pos s.pos s) ∧
    (growTrace g fuel b i s.pos s.pos s).length ≤ s.input.length - s.pos ∧
    ∀ lastRes res s1, growLoop g fuel b i s.pos lastRes s.pos s = some (res, s1) →
      s1.pos = (growTrace g fuel b i s.pos s.pos s).getLastD s.pos := by
  refine ⟨growTrace_chain g fuel b i s.pos s.pos s, ?_,
    fun lastRes res s1 h => growLoop_trace_pos g fuel b i s.pos lastRes s.pos s res s1 h⟩
  exact chain_lt_length_le _ s.pos _ (growTrace_chain g fuel b i s.pos s.pos s)
    (growTrace_le g hg fuel b i s.pos s.pos s hwb hbnd hP)

theorem leftrec_seed_growth_monotone_bounded_witness :
    List.Chain (· < ·) 0 (growTrace gLR 20 bodyLR 0 0 0 (initState [49, 43, 49])) ∧
    (growTrace gLR 20 bodyLR 0 0 0 (initState [49, 43, 49])).length ≤ 3 - 0 := by
  have hwb : WFr bodyLR :=
    WFr.either _ _ (WFr.three _ _ _ (WFr.refR 0) (WFr.str1 43) (WFr.str1 49)) (WFr.str1 49)
  have hg : WFg gLR := by
    intro i b h
    simp only [gLR] at h
    split at h
    · cases h
      exact hwb
    · cases h
  have h := leftrec_seed_growth_monotone_bounded gLR 20 bodyLR 0 (initState [49, 43, 49]) hg
    hwb (by intro k e he; simp [memoLookup] at he) (by decide)
  exact ⟨h.1, h.2.1⟩

/-- Claim C4.  Parser.Parse returns (nil, false, nil) when the root does
not match; (value, true, nil) when the root matches and consumed the whole
input; and when the root matched but the position is not at the end it
returns (value, false, InputNotConsumed(maxPos, maxRule)) in strict mode
and (value, true, nil) in partial mode. -/
theorem parse_driver_cases (g : Grammar) (fuel : Nat) (ap : Bool) (r : Rule)
    (input : List Nat) (res : Result) (s1 : State)
    (h : matchRule g fuel r (initState input) = some (res, s1)) :
    (res.matched = false → parse g fuel ap r input =
      some { value := none, ok := false, errNotConsumed := none }) ∧
    (res.matched = true → s1.pos = input.length → parse g fuel ap r input =
      some { value := res.value, ok := true, errNotConsumed := none }) ∧
    (res.matched = true → s1.pos ≠ input.length →
      (ap = false → parse g fuel ap r input =
        some { value := res.value, ok := false,
               errNotConsumed := some (s1.maxPos, s1.maxRule) }) ∧
      (ap = true → parse g fuel ap r input =
        some { value := res.value, ok := true, errNotConsumed := none })) := by
  refine ⟨fun hf => ?_, fun hm hp => ?_, fun hm hp => ⟨fun hap => ?_, fun hap => ?_⟩⟩
  · simp [parse, h, hf]
  · simp [parse, h, hm, hp]
  · subst hap; simp [parse, h, hm, hp]
  · subst hap; simp [parse, h, hm]

theorem parse_driver_cases_witness :
    parse g0 10 false (.str1 97) [97] =
      some { value := none, ok := true, errNotConsumed := none } := by
  have h : matchRule g0 10 (.str1 97) (initState [97]) =
      some ({ matched := true },
        { input := [97], pos := 1, memos := [], values := .compact [],
          curRef := none, maxPos := 1, maxRule := none }) := by decide
  exact (parse_driver_cases g0 10 false (.str1 97) [97] _ _ h).2.1 rfl (by decide)

/-- Claim C5.  Two invocations of the same Ref from the same position
within the same parse return identical results.  The first call records a
memo entry holding its result and end position (refPost); any amount of
further evaluation preserves that entry's result and end position
(hpres, which matchRule_post supplies for every completed call); the
second invocation is answered from the entry, so the matched flag, the
value and the post-call position coincide. -/
theorem ref_memo_determinism (g : Grammar) (fuel1 fuel2 i : Nat) (s : State)
    (res1 : Result) (s1 : State) (sM : State) (res2 : Result) (s2 : State)
    (h1 : matchRule g (fuel1 + 1) (.refR i) s = some (res1, s1))
    (hpres : MemoPres s1.memos sM.memos)
    (h2 : matchRule g (fuel2 + 1) (.refR i) (sM.restore s.pos) = some (res2, s2)) :
    res2.matched = res1.matched ∧ res2.value = res1.value ∧ s2.pos = s1.pos := by
  obtain ⟨e, hl, hr, he⟩ := refPost g fuel1 i s res1 s1 h1
  obtain ⟨e2, hl2, hr2, he2⟩ := hpres (s.pos, i) e hl
  simp only [matchRule] at h2
  split at h2
  · cases h2
  · rename_i b hbody
    split at h2
    · rename_i e3 heq2
      have heq2a : memoLookup sM.memos (s.pos, i) = some e3 := by simpa using heq2
      rw [hl2] at heq2a
      cases heq2a
      simp only [Option.some.injEq, Prod.mk.injEq] at h2
      obtain ⟨hres, hs⟩ := h2; subst hres; subst hs
      rw [hr2, hr]
      exact ⟨rfl, rfl, he2.trans he⟩
    · rename_i heq2
      exfalso
      have hnone : memoLookup sM.memos (s.pos, i) = none := by simpa using heq2
      rw [hl2] at hnone
      cases hnone

theorem ref_memo_determinism_witness :
    matchRule gE (5 + 1) (.refR 0) (initState []) =
      some ({ matched := true },
        { input := [], pos := 0,
          memos := [((0, 0), { res := { matched := true }, endPos := 0, used := 0 })],
          values := .compact [], curRef := none, maxPos := 0, maxRule := none }) ∧
    ({ matched := true } : Result).matched = ({ matched := true } : Result).matched ∧
    ({ matched := true } : Result).value = ({ matched := true } : Result).value ∧
    (0 : Nat) = 0 := by
  have h1 : matchRule gE (5 + 1) (.refR 0) (initState []) =
      some ({ matched := true },
        { input := [], pos := 0,
          memos := [((0, 0), { res := { matched := true }, endPos := 0, used := 0 })],
          values := .compact [], curRef := none, maxPos := 0, maxRule := none }) := by decide
  have h2 : matchRule gE (5 + 1) (.refR 0)
      (({ input := [], pos := 0,
          memos := [((0, 0), { res := { matched := true }, endPos := 0, used := 0 })],
          values := .compact [], curRef := none, maxPos := 0,
          maxRule := none } : State).restore 0) =
      some ({ matched := true },
        { input := [], pos := 0,
          memos := [((0, 0), { res := { matched := true }, endPos := 0, used := 1 })],
          values := .compact [], curRef := none, maxPos := 0, maxRule := none }) := by decide
  have := ref_memo_determinism gE 5 5 0 (initState []) _ _ _ _ _ h1 (memoPres_refl _) h2
  exact ⟨h1, this⟩

/-- Claim C6, counterexample.  The claim bounds the number of successful
iterations of Many(r, min, max, fn) by max for every integer max.  With
max = 0 the break test (run after appending) never fires, so on input "a"
the loop collects one result and the rule matches having consumed one
iteration, exceeding max = 0. -/
theorem many_max_bound_counterexample :
    (manyLoop g0 9 (.str1 97) 0 [] (initState [97])).map (fun p => (p.1, p.2.pos)) =
      some ([none], 1) ∧
    (matchRule g0 (9 + 1) (.manyR 0 0 (.str1 97) none) (initState [97])).map
      (fun p => (p.1, p.2.pos)) = some ({ matched := true }, 1) ∧
    ¬ (((([none] : List Val)).length : Int) ≤ 0) :=
  ⟨by decide, by decide, by decide⟩

/-- Claim C6, amended.  For max = -1 (unbounded) or max ≥ 1: when
Many(r, min, max, fn) matches, the number of collected iterations (the
results slice built by the loop from the empty slice) is at least min and,
for max ≠ -1, at most max; and whenever fewer than min results were
collected the rule fails and restores the position to the entry mark. -/
theorem many_iteration_bounds (g : Grammar) (fuel : Nat) (mn mx : Int) (r : Rule)
    (f : Option (List Val → Val)) (s : State) (res : Result) (s1 : State)
    (hmx : mx = -1 ∨ 1 ≤ mx)
    (h : matchRule g (fuel + 1) (.manyR mn mx r f) s = some (res, s1)) :
    (res.matched = true → ∃ results sL, manyLoop g fuel r mx [] s = some (results, sL) ∧
      mn ≤ (results.length : Int) ∧ (mx ≠ -1 → (results.length : Int) ≤ mx)) ∧
    (∀ results sL, manyLoop g fuel r mx [] s = some (results, sL) →
      (results.length : Int) < mn → res.matched = false ∧ s1.pos = s.pos) := by
  simp only [matchRule] at h
  split at h
  · cases h
  · rename_i results0 s0 heq
    split at h
    · rename_i hlt
      simp only [Option.some.injEq, Prod.mk.injEq] at h
      obtain ⟨hres, hs⟩ := h; subst hres; subst hs
      constructor
      · intro hm; simp at hm
      · intro results sL hml hlen
        exact ⟨rfl, by simp⟩
    · rename_i hge
      simp only [Option.some.injEq, Prod.mk.injEq] at h
      obtain ⟨hres, hs⟩ := h; subst hres; subst hs
      constructor
      · intro _
        refine ⟨results0, s0, heq, by omega, fun hne => ?_⟩
        rcases hmx with rfl | hpos
        · exact absurd rfl hne
        · exact manyLoop_len g fuel r mx [] s results0 s0 heq hne (by simp; omega)
      · intro results sL hml hlen
        rw [heq] at hml
        simp only [Option.some.injEq, Prod.mk.injEq] at hml
        obtain ⟨hr1, hr2⟩ := hml
        subst hr1
        exact absurd hlen hge

theorem many_iteration_bounds_witness :
    ∃ results sL, manyLoop g0 9 (.str1 97) 2 [] (initState [97, 97, 97]) = some (results, sL) ∧
      (1 : Int) ≤ (results.length : Int) ∧ ((2 : Int) ≠ -1 → (results.length : Int) ≤ 2) := by
  have h : matchRule g0 (9 + 1) (.manyR 1 2 (.str1 97) none) (initState [97, 97, 97]) =
      some ({ matched := true },
        { input := [97, 97, 97], pos := 2, memos := [], values := .compact [],
          curRef := none, maxPos := 2, maxRule := none }) := by decide
  exact (many_iteration_bounds g0 9 1 2 (.str1 97) none (initState [97, 97, 97]) _ _
    (Or.inr (by decide)) h).1 rfl

/-- Claim C7, counterexample.  The claim says Scan(fn).match calls fn on
the remaining input and fails exactly when fn returns -1.  At end of input
the source fails without consulting fn: on empty input with fn constantly
0 the rule fails although fn would return 0, which is not -1. -/
theorem scan_eos_counterexample :
    matchRule g0 (1 + 1) (.scanR (fun _ => 0)) (initState []) =
      some ({ matched := false }, initState []) ∧
    (fun _ : List Nat => (0 : Int)) (initState []).cur = 0 ∧ ((0 : Int) ≠ -1) :=
  ⟨by decide, rfl, by decide⟩

/-- Claim C7, amended.  Scan(fn).match fails without calling fn when the
position is at or past the end of the input; otherwise it calls fn on the
remaining input, fails leaving the position unchanged when fn returns -1,
and for a non-negative return k advances the position by k bytes and
matches. -/
theorem scan_semantics (g : Grammar) (fuel : Nat) (f : List Nat → Int) (s : State) :
    (s.pos ≥ s.input.length →
      matchRule g (fuel + 1) (.scanR f) s = some ({ matched := false }, s)) ∧
    (s.pos < s.input.length → f s.cur = -1 →
      matchRule g (fuel + 1) (.scanR f) s = some ({ matched := false }, s)) ∧
    (∀ k : Nat, s.pos < s.input.length → f s.cur = (k : Int) →
      matchRule g (fuel + 1) (.scanR f) s = some ({ matched := true }, s.advance k)) := by
  refine ⟨fun hge => ?_, fun hlt hm => ?_, fun k hlt hk => ?_⟩
  · simp [matchRule, hge]
  · have hn : ¬ s.pos ≥ s.input.length := by omega
    simp [matchRule, hn, hm]
  · have hn : ¬ s.pos ≥ s.input.length := by omega
    have hne : ¬ f s.cur = -1 := by rw [hk]; omega
    simp [matchRule, hn, hk, hne]

theorem scan_semantics_witness :
    matchRule g0 (0 + 1) (.scanR (fun l => (l.length : Int))) (initState [97]) =
      some ({ matched := true }, (initState [97]).advance 1) := by
  exact (scan_semantics g0 0 (fun l => (l.length : Int)) (initState [97])).2.2 1
    (by decide) (by decide)

/-- Claim C8.  The general not-predicate fails at end of input, otherwise
inverts the matched flag of its sub-rule, and always leaves the position
where it was; Not(S(b)) for a one-byte literal is built as the NotByte
specialization, which agrees with the general not-predicate over S(b) in
matched flag, value and position, and matches exactly when not at end of
input and the current byte differs from b, never advancing. -/
theorem not_predicate_notbyte_equiv (g : Grammar) :
    (∀ fuel r s, s.pos ≥ s.input.length →
      matchRule g (fuel + 1) (.notR r) s = some ({ matched := false }, s)) ∧
    (∀ fuel r s res0 s0, s.pos < s.input.length →
      matchRule g fuel r s = some (res0, s0) →
      matchRule g (fuel + 1) (.notR r) s =
        some ({ matched := !res0.matched, value := res0.value }, s0.restore s.pos)) ∧
    (∀ fuel r s res s1, matchRule g (fuel + 1) (.notR r) s = some (res, s1) →
      s1.pos = s.pos) ∧
    (∀ b, mkNot (.str1 b) = .notByte b) ∧
    (∀ fuel b s, (matchRule g (fuel + 2) (.notR (.str1 b)) s).map (fun p => (p.1, p.2.pos)) =
      (matchRule g (fuel + 1) (.notByte b) s).map (fun p => (p.1, p.2.pos))) ∧
    (∀ fuel b s, matchRule g (fuel + 1) (.notByte b) s =
      some ({ matched := decide (s.pos < s.input.length ∧ b ≠ s.byteAt) }, s)) := by
  refine ⟨?_, ?_, ?_, ?_, ?_, ?_⟩
  · intro fuel r s hge
    simp [matchRule, hge]
  · intro fuel r s res0 s0 hlt hm
    have hn : ¬ s.pos ≥ s.input.length := by omega
    simp [matchRule, hn, hm]
  · intro fuel r s res s1 h
    simp only [matchRule] at h
    split at h
    · simp only [Option.some.injEq, Prod.mk.injEq] at h
      obtain ⟨_, hs⟩ := h; subst hs; rfl
    · split at h
      · cases h
      · rename_i res0 s0 heq
        simp only [Option.some.injEq, Prod.mk.injEq] at h
        obtain ⟨_, hs⟩ := h; subst hs; rfl
  · intro b; rfl
  · intro fuel b s
    by_cases hge : s.pos ≥ s.input.length
    · simp [matchRule, hge]
    · by_cases hb : s.byteAt = b
      · simp [matchRule, hge, hb]
      · have hb2 : ¬ b = s.byteAt := fun hh => hb hh.symm
        simp [matchRule, hge, hb, hb2]
  · intro fuel b s
    by_cases hge : s.pos ≥ s.input.length
    · have hc : ¬ (s.pos < s.input.length ∧ b ≠ s.byteAt) := fun hh => by omega
      simp [matchRule, hge, hc]
    · have hl : s.pos < s.input.length := by omega
      simp [matchRule, hge, hl]

theorem not_predicate_notbyte_equiv_witness :
    matchRule g0 (1 + 1) (.notR .eos) (initState [97]) =
      some ({ matched := true }, initState [97]) := by
  have h0 : matchRule g0 1 .eos (initState [97]) =
      some ({ matched := false }, initState [97]) := by decide
  have := (not_predicate_notbyte_equiv g0).2.1 1 .eos (initState [97]) _ _ (by decide) h0
  simpa using this

/-- Claim C9.  Transform with the identity function on the matched
substring and Capture are the same function of the state: both match
exactly when the sub-rule matches, leave the position at the same place,
and produce the matched span of the input as their value. -/
theorem transform_identity_eq_capture (g : Grammar) (fuel : Nat) (r : Rule) (s : State) :
    matchRule g (fuel + 1) (.transform r (fun bs => some (.bytes bs))) s =
    matchRule g (fuel + 1) (.captureR r) s := by
  simp only [matchRule]
  cases hm : matchRule g fuel r s with
  | none => rfl
  | some p =>
    obtain ⟨res0, s0⟩ := p
    by_cases hmt : res0.matched <;> simp [hmt, applySetPos]

/-- Claim C10.  Matching a Ref does not push a value scope: Ref.Set wraps
the body in an extra Scope only when the body is itself a Scope rule
(first two conjuncts); an ordinary unmemoized Ref call runs its body in
the caller's own scope, returning the body's values unchanged apart from
the memo write and the curRef restore (third conjunct); and Named stores
its value into whatever scope is current, which therefore stays visible to
the caller (fourth conjunct). -/
theorem ref_scope_transparency (g : Grammar) :
    (∀ b, isScopeRule b = false → refSetBody b = b) ∧
    (∀ b, isScopeRule b = true → refSetBody b = .scopeR b) ∧
    (∀ fuel i b s res0 s0, g.body i = some b → g.leftRec i = false →
      memoLookup s.memos (s.pos, i) = none →
      matchRule g fuel b { s with curRef := some i } = some (res0, s0) →
      matchRule g (fuel + 1) (.refR i) s =
        some (res0, { s0 with
          memos := memoSet s0.memos (s.pos, i) { res := res0, endPos := s0.pos, used := 0 },
          curRef := s.curRef })) ∧
    (∀ fuel n r1 s res s1, matchRule g (fuel + 1) (.named n r1) s = some (res, s1) →
      res.matched = true →
      ∃ s0, matchRule g fuel r1 s = some (res, s0) ∧
        s1 = { s0 with values := namedStore s0.values n res.value }) := by
  refine ⟨?_, ?_, ?_, ?_⟩
  · intro b hb; simp [refSetBody, hb]
  · intro b hb; simp [refSetBody, hb]
  · intro fuel i b s res0 s0 hbody hlr hmemo hm
    simp only [matchRule, hbody, hlr, hmemo, hm]
    rfl
  · intro fuel n r1 s res s1 h hm
    simp only [matchRule] at h
    split at h
    · cases h
    · rename_i res0 s0 heq
      split at h
      · rename_i hmt
        simp only [Option.some.injEq, Prod.mk.injEq] at h
        obtain ⟨hres, hs⟩ := h; subst hres; subst hs
        exact ⟨s0, heq, rfl⟩
      · rename_i hmt
        simp only [Option.some.injEq, Prod.mk.injEq] at h
        obtain ⟨hres, hs⟩ := h; subst hres
        exact absurd hm hmt

theorem ref_scope_transparency_witness :
    matchRule gN (5 + 1) (.refR 0) (initState [97]) =
      some ({ matched := true, value := some (.bytes [97]) },
        { input := [97], pos := 1,
          memos := [((0, 0),
            { res := { matched := true, value := some (.bytes [97]) }, endPos := 1, used := 0 })],
          values := .compact [("x", some (.bytes [97]))],
          curRef := none, maxPos := 1, maxRule := some 0 }) := by
  have hm : matchRule gN 5 (.named "x" (.captureR (.str1 97)))
      { initState [97] with curRef := some 0 } =
      some ({ matched := true, value := some (.bytes [97]) },
        { input := [97], pos := 1, memos := [],
          values := .compact [("x", some (.bytes [97]))],
          curRef := some 0, maxPos := 1, maxRule := some 0 }) := by decide
  have := (ref_scope_transparency gN).2.2.1 5 0 (.named "x" (.captureR (.str1 97)))
    (initState [97]) _ _ rfl rfl rfl hm
  simpa using this

end Peggysue
